import Mathlib

/-!
Shallow embedding of the housing-market simulation core
(src/js/core/Person.js, House.js, Auction.js, the Market class of
src/js/ui/SimulationRenderer.js, and src/js/utils/Config.js).

JS objects with mutual pointers (Person.house / House.owner) are modelled
by records carrying numeric ids together with explicit lists of the live
records; pointer dereference becomes lookup by id.  JS numbers are
modelled by ℚ.  Randomness (Math.random in shuffling and wealth sampling)
is modelled by explicit oracle parameters.
-/

namespace HousingSim

/-- Participant record (Person.js): id, wealth, owned house (by id), entry year. -/
structure Person where
  id : Nat
  wealth : ℚ
  house : Option Nat
  yearEntered : Int
  deriving DecidableEq

/-- Dwelling record (House.js): id, intrinsic value, last selling price,
owner (by person id), years since last ownership change. -/
structure House where
  id : Nat
  intrinsicValue : ℚ
  lastSellingPrice : ℚ
  owner : Option Nat
  yearsSinceOwnership : Nat
  deriving DecidableEq

/-- House.calculateValue(valueIntrinsicness): weighted average of intrinsic
value and last market price. -/
def House.calculateValue (h : House) (valueIntrinsicness : ℚ) : ℚ :=
  valueIntrinsicness * h.intrinsicValue + (1 - valueIntrinsicness) * h.lastSellingPrice

/-- House.calculateValue() with the JS default parameter 0.7; this is what
Person.canAfford and Person.shouldBid invoke in the source. -/
def House.calculateValueDefault (h : House) : ℚ :=
  h.calculateValue (7/10)

/-- House.isAvailable(): no owner. -/
def House.isAvailable (h : House) : Bool :=
  h.owner = none

/-- House.incrementOwnershipYears(): always increments, owned or not. -/
def House.incrementYears (h : House) : House :=
  { h with yearsSinceOwnership := h.yearsSinceOwnership + 1 }

/-- House.applyVacantDepreciation(rate): only if available and rate > 0,
multiply intrinsic value by (1 - rate) and floor at 1000. -/
def House.applyVacantDeprec (rate : ℚ) (h : House) : House :=
  if h.owner = none ∧ 0 < rate then
    { h with intrinsicValue := max (h.intrinsicValue * (1 - rate)) 1000 }
  else h

/-- Person.canAfford(house): wealth ≥ house.calculateValue() (default 0.7). -/
def Person.canAfford (p : Person) (h : House) : Bool :=
  decide (h.calculateValueDefault ≤ p.wealth)

/-- Person.getBidAmount(): always the full wealth. -/
def Person.getBidAmount (p : Person) : ℚ :=
  p.wealth

/-- Dereference a house pointer: look the id up among the live houses. -/
def findHouse (houses : List House) (hid : Nat) : Option House :=
  houses.find? (fun h => h.id == hid)

/-- Dereference a person pointer: look the id up among the live people. -/
def findPerson (people : List Person) (pid : Nat) : Option Person :=
  people.find? (fun p => p.id == pid)

/-- Person.shouldBid(house, upgradeThreshold): a homeless person bids iff they
can afford; an owner additionally requires
targetValue ≥ upgradeThreshold * currentValue, both values computed by
calculateValue() with the default 0.7 weight.  The `none` lookup branch is
unreachable in the source (the JS pointer is always live). -/
def Person.shouldBid (houses : List House) (p : Person) (h : House)
    (upgradeThreshold : ℚ) : Bool :=
  match p.house with
  | none => p.canAfford h
  | some hid =>
    match findHouse houses hid with
    | none => false
    | some cur =>
      p.canAfford h &&
        decide (upgradeThreshold * cur.calculateValueDefault ≤ h.calculateValueDefault)

/-- Per-dwelling auction outcome (the record returned by auctionSingleHouse). -/
structure AuctionResult where
  houseId : Nat
  winner : Option Nat
  winningBid : ℚ
  secondPrice : ℚ
  bidderCount : Nat
  deriving DecidableEq

/-- Comparator used by `bids.sort((a, b) => b.amount - a.amount)`: descending
by amount; mergeSort is stable, matching the stable JS Array.sort. -/
def bidSortLe (a b : Person × ℚ) : Bool :=
  decide (b.2 ≤ a.2)

/-- Auction.auctionSingleHouse: filter the bidder pool to those not already
won and for whom shouldBid holds; everyone bids their full wealth; highest
bid wins; a single bidder pays 75% of their bid, otherwise the winner pays
the second-highest bid.  valueIntrinsicness is computed into houseValue in
the source but used only for console display, hence unused here. -/
def auctionSingleHouse (people : List Person) (houses : List House) (h : House)
    (_valueIntrinsicness upgradeThreshold : ℚ) (alreadyWon : List Nat) : AuctionResult :=
  let bidders := people.filter
    (fun p => !(alreadyWon.contains p.id) && p.shouldBid houses h upgradeThreshold)
  if bidders.isEmpty then
    { houseId := h.id, winner := none, winningBid := 0, secondPrice := 0, bidderCount := 0 }
  else
    let bids := bidders.map (fun p => (p, p.getBidAmount))
    let sorted := bids.mergeSort bidSortLe
    match sorted with
    | [] =>
      { houseId := h.id, winner := none, winningBid := 0, secondPrice := 0, bidderCount := 0 }
    | wb :: rest =>
      let priceToPay :=
        match rest with
        | [] => wb.2 * (3/4)
        | sb :: _ => sb.2
      { houseId := h.id, winner := some wb.1.id, winningBid := wb.2,
        secondPrice := priceToPay, bidderCount := bidders.length }

/-- Auction.conductVickreyAuction's loop, carrying the alreadyWon set
(modelled as a list of person ids). -/
def conductVickreyAuctionAux (people : List Person) (houses : List House)
    (vi ut : ℚ) (alreadyWon : List Nat) : List House → List AuctionResult
  | [] => []
  | h :: hs =>
    let r := auctionSingleHouse people houses h vi ut alreadyWon
    let alreadyWon' :=
      match r.winner with
      | some w => alreadyWon ++ [w]
      | none => alreadyWon
    r :: conductVickreyAuctionAux people houses vi ut alreadyWon' hs

/-- Auction.conductVickreyAuction: auction each house of the batch in order,
excluding people who already won a house in this batch. -/
def conductVickreyAuction (people : List Person) (houses : List House)
    (batchHouses : List House) (vi ut : ℚ) : List AuctionResult :=
  conductVickreyAuctionAux people houses vi ut [] batchHouses

/-- Update the person with the given id (JS mutates the unique live object). -/
def updPerson (people : List Person) (pid : Nat) (g : Person → Person) : List Person :=
  people.map (fun q => if q.id = pid then g q else q)

/-- Update the house with the given id (JS mutates the unique live object). -/
def updHouse (houses : List House) (hid : Nat) (g : House → House) : List House :=
  houses.map (fun h => if h.id = hid then g h else h)

/-- Person.sellHouse(): if the person owns a house, clear the house's owner,
zero its yearsSinceOwnership, and clear the person's forward pointer. -/
def sellHouseUpd (people : List Person) (houses : List House) (pid : Nat) :
    List Person × List House :=
  match findPerson people pid with
  | none => (people, houses)
  | some p =>
    match p.house with
    | none => (people, houses)
    | some hid =>
      (updPerson people pid (fun q => { q with house := none }),
       updHouse houses hid (fun h => { h with owner := none, yearsSinceOwnership := 0 }))

/-- Person.buyHouse(house, price): the buyer first sells their current house
(if any), then takes ownership: forward pointer, back pointer,
lastSellingPrice := price, yearsSinceOwnership := 0.  Wealth is not
depleted (documented simplification). -/
def buyHouseUpd (people : List Person) (houses : List House) (pid hid : Nat)
    (price : ℚ) : List Person × List House :=
  match findPerson people pid with
  | none => (people, houses)
  | some p =>
    let st :=
      match p.house with
      | some _ => sellHouseUpd people houses pid
      | none => (people, houses)
    (updPerson st.1 pid (fun q => { q with house := some hid }),
     updHouse st.2 hid (fun h =>
       { h with owner := some pid, lastSellingPrice := price, yearsSinceOwnership := 0 }))

/-- Sequence of buy operations (buyer id, house id, price) executed in order;
shared core of Auction.executeTransactions and Market.initializeOccupancy. -/
def execBuys (buys : List (Nat × Nat × ℚ)) (people : List Person)
    (houses : List House) : List Person × List House :=
  buys.foldl (fun st b => buyHouseUpd st.1 st.2 b.1 b.2.1 b.2.2) (people, houses)

/-- The buy operations induced by a batch's results: one per result with a
winner, in result order (Auction.executeTransactions).  The housesFromUpgrades
list collected there is never reclaimed by the Market, so it has no effect on
market state and is not modelled. -/
def resultBuys (results : List AuctionResult) : List (Nat × Nat × ℚ) :=
  results.filterMap (fun r => r.winner.map (fun w => (w, r.houseId, r.secondPrice)))

/-- Auction.executeTransactions: every result with a winner is executed as a
buyHouse call, in order. -/
def executeTransactions (results : List AuctionResult) (people : List Person)
    (houses : List House) : List Person × List House :=
  execBuys (resultBuys results) people houses

/-- Auction.getSuccessfulSales().map(result => result.house): the house ids
sold by a list of results. -/
def soldIds (results : List AuctionResult) : List Nat :=
  (results.filter (fun r => r.winner.isSome)).map (fun r => r.houseId)

/-- The configuration fields the Market engine reads (Config.js keys). -/
structure Cfg where
  turnover_in : Nat
  turnover_out : Nat
  n_auction_steps : Nat
  upgrade_threshold : ℚ
  value_intrinsicness : ℚ
  vacant_depreciation : ℚ
  deriving DecidableEq

/-- Market state (the Market class of SimulationRenderer.js).
availableHouses holds house ids; nextPersonId models the global
Person.idCounter. -/
structure MarketState where
  people : List Person
  houses : List House
  availableHouses : List Nat
  currentYear : Int
  tickCount : Nat
  nextPersonId : Nat
  lastAuctionResults : List AuctionResult
  deriving DecidableEq

/-- Market.applyVacantDepreciation: skipped entirely when the rate is ≤ 0;
otherwise the source filters the vacant houses and calls the per-house
method on each.  The per-house method is the identity on occupied houses,
so mapping it over all houses is the same update. -/
def marketApplyVacantDeprec (rate : ℚ) (s : MarketState) : MarketState :=
  if rate ≤ 0 then s
  else { s with houses := s.houses.map (House.applyVacantDeprec rate) }

/-- MathUtils.selectRandomElements(array, count): the whole array when
count ≥ length, else the first count elements of a uniform shuffle.  The
shuffle is the randomness oracle. -/
def selectRandomElements (shuffle : List Person → List Person)
    (l : List Person) (count : Nat) : List Person :=
  if l.length ≤ count then l else (shuffle l).take count

/-- The participants selected to exit this tick (Market.processExits's
exitingPeople): drawn from ALL people, not just housed ones. -/
def exitingPeople (cfg : Cfg) (shuffle : List Person → List Person)
    (s : MarketState) : List Person :=
  if cfg.turnover_out = 0 then []
  else selectRandomElements shuffle s.people cfg.turnover_out

/-- One exiting person: if they own a house, sell it and push the freed
house onto availableHouses (the forEach body of Market.processExits).
The person's live record is dereferenced by id. -/
def exitOne (st : List Person × List House × List Nat) (pid : Nat) :
    List Person × List House × List Nat :=
  match findPerson st.1 pid with
  | none => st
  | some p =>
    match p.house with
    | none => st
    | some hid =>
      let ph := sellHouseUpd st.1 st.2.1 pid
      (ph.1, ph.2, st.2.2 ++ [hid])

/-- Market.processExits: select exiting people, release their houses into
the available pool, then remove them from the population. -/
def processExits (cfg : Cfg) (shuffle : List Person → List Person)
    (s : MarketState) : MarketState :=
  if cfg.turnover_out = 0 then s
  else
    let exiting := exitingPeople cfg shuffle s
    if exiting.isEmpty then s
    else
      let exitIds := exiting.map Person.id
      let st := exitIds.foldl exitOne (s.people, s.houses, s.availableHouses)
      { s with
        people := st.1.filter (fun p => !(exitIds.contains p.id)),
        houses := st.2.1,
        availableHouses := st.2.2 }

/-- Market.processEntries: turnover_in new unhoused people with sampled
wealth (the sampler is the randomness oracle) and fresh ids. -/
def processEntries (cfg : Cfg) (entrantWealth : Nat → ℚ) (s : MarketState) :
    MarketState :=
  if cfg.turnover_in = 0 then s
  else
    let newcomers := (List.range cfg.turnover_in).map (fun i =>
      Person.mk (s.nextPersonId + i) (entrantWealth i) none s.currentYear)
    { s with
      people := s.people ++ newcomers,
      nextPersonId := s.nextPersonId + cfg.turnover_in }

/-- Dereference a list of house ids (a JS array of House aliases). -/
def lookupHouses (houses : List House) (ids : List Nat) : List House :=
  ids.filterMap (findHouse houses)

/-- One batch of Market.conductAuctions: auction the first housesPerBatch
entries of the CURRENT availableHouses list (slice(0, housesPerBatch))
against the whole current population. -/
def batchResults (cfg : Cfg) (housesPerBatch : Nat) (s : MarketState) :
    List AuctionResult :=
  conductVickreyAuction s.people s.houses
    (lookupHouses s.houses (s.availableHouses.take housesPerBatch))
    cfg.value_intrinsicness cfg.upgrade_threshold

/-- State change of one batch: execute the transactions and remove only the
SOLD houses from availableHouses (unsold ones stay in place). -/
def batchStep (cfg : Cfg) (housesPerBatch : Nat) (s : MarketState) : MarketState :=
  let results := batchResults cfg housesPerBatch s
  let ph := executeTransactions results s.people s.houses
  let sold := soldIds results
  { s with
    people := ph.1,
    houses := ph.2,
    availableHouses := s.availableHouses.filter (fun hid => !(sold.contains hid)) }

/-- The batch loop of Market.conductAuctions: up to n_auction_steps batches,
stopping early when availableHouses (or the dereferenced batch) is empty.
Returns the final state and the per-batch result lists in order. -/
def runBatches (cfg : Cfg) (housesPerBatch : Nat) :
    Nat → MarketState → MarketState × List (List AuctionResult)
  | 0, s => (s, [])
  | fuel + 1, s =>
    if s.availableHouses.isEmpty then (s, [])
    else if (lookupHouses s.houses (s.availableHouses.take housesPerBatch)).isEmpty then
      (s, [])
    else
      let rec2 := runBatches cfg housesPerBatch fuel (batchStep cfg housesPerBatch s)
      (rec2.1, batchResults cfg housesPerBatch s :: rec2.2)

/-- Math.max(1, Math.ceil(available / nAuctionSteps)), exact on naturals. -/
def housesPerBatchOf (available n : Nat) : Nat :=
  max 1 ((available + n - 1) / n)

/-- Market.conductAuctions: early return when nothing is available
(leaving lastAuctionResults untouched); otherwise run up to
n_auction_steps batches and store the concatenation of all batch results. -/
def conductAuctions (cfg : Cfg) (s : MarketState) : MarketState :=
  if s.availableHouses.isEmpty then s
  else
    let housesPerBatch := housesPerBatchOf s.availableHouses.length cfg.n_auction_steps
    let out := runBatches cfg housesPerBatch cfg.n_auction_steps s
    { out.1 with lastAuctionResults := out.2.flatten }

/-- Market.tick: age every house, depreciate vacant houses, process exits,
process entries, conduct auctions, advance the year. -/
def tick (cfg : Cfg) (shuffle : List Person → List Person)
    (entrantWealth : Nat → ℚ) (s : MarketState) : MarketState :=
  let s1 := { s with tickCount := s.tickCount + 1 }
  let s2 := { s1 with houses := s1.houses.map House.incrementYears }
  let s3 := marketApplyVacantDeprec cfg.vacant_depreciation s2
  let s4 := processExits cfg shuffle s3
  let s5 := processEntries cfg entrantWealth s4
  let s6 := conductAuctions cfg s5
  { s6 with currentYear := s6.currentYear + 1 }

/-- Market.initialize before initializeOccupancy: houses from sampled
intrinsic values (initial price = intrinsic value), people from sampled
wealths, everyone unhoused, every house available; ids count up from 1
as the JS ++idCounter does. -/
def initRaw (houseVals wealths : List ℚ) (startYear : Int) : MarketState :=
  let houses := houseVals.enum.map (fun iv => House.mk (iv.1 + 1) iv.2 iv.2 none 0)
  { people := wealths.enum.map (fun iw => Person.mk (iw.1 + 1) iw.2 none startYear),
    houses := houses,
    availableHouses := houses.map House.id,
    currentYear := startYear,
    tickCount := 0,
    nextPersonId := wealths.length + 1,
    lastAuctionResults := [] }

/-- The wealth-to-value matching pairs of Market.initializeOccupancy:
houses sorted by value ascending, people by wealth ascending, paired
index-for-index over the first floor(0.8 * numHouses) indices.
Math.floor(n * 0.8) equals (8 * n) / 10 on naturals for all list sizes
(the float product rounds to the exact value). -/
def initPairs (s : MarketState) : List (House × Person) :=
  let numToOccupy := 8 * s.houses.length / 10
  let sortedHouses := s.houses.mergeSort
    (fun a b => decide (a.calculateValueDefault ≤ b.calculateValueDefault))
  let sortedPeople := s.people.mergeSort (fun a b => decide (a.wealth ≤ b.wealth))
  (sortedHouses.take numToOccupy).zip sortedPeople

/-- Market.initializeOccupancy: each matched person buys the matched house
at its pre-purchase calculateValue(); the occupied houses are filtered out
of availableHouses (the source filters inside the loop, one house per
iteration; the single filter over the collected ids is the same list). -/
def initOccupancy (s : MarketState) : MarketState :=
  let pairs := initPairs s
  let ph := execBuys (pairs.map (fun hp => (hp.2.id, hp.1.id, hp.1.calculateValueDefault)))
    s.people s.houses
  let occupiedIds := pairs.map (fun hp => hp.1.id)
  { s with
    people := ph.1,
    houses := ph.2,
    availableHouses := s.availableHouses.filter (fun hid => !(occupiedIds.contains hid)) }

/-- Market construction: create houses and people, then set up the initial
~80% occupancy. -/
def initMarket (houseVals wealths : List ℚ) (startYear : Int) : MarketState :=
  initOccupancy (initRaw houseVals wealths startYear)

/-- The Gini coefficient of Market.getMarketStats: pairwise mean absolute
difference over 2·n²·mean, defined as 0 unless n > 1 and total wealth > 0. -/
def giniCoefficient (wealths : List ℚ) : ℚ :=
  let totalWealth := wealths.sum
  if 1 < wealths.length ∧ 0 < totalWealth then
    let giniSum := (wealths.map (fun wi => (wealths.map (fun wj => |wi - wj|)).sum)).sum
    giniSum / (2 * (wealths.length : ℚ) * (wealths.length : ℚ)
      * (totalWealth / (wealths.length : ℚ)))
  else 0

/-- The fields of Market.getMarketStats needed here. -/
structure MarketStats where
  totalPeople : Nat
  housedPeople : Nat
  houselessPeople : Nat
  totalHouses : Nat
  occupiedHouses : Nat
  availableHouses : Nat
  giniCoefficient : ℚ
  deriving DecidableEq

/-- Market.getMarketStats: counts and the Gini coefficient of the wealth
list sorted descending (as the source sorts before computing). -/
def getMarketStats (s : MarketState) : MarketStats :=
  let wealths := (s.people.map Person.wealth).mergeSort (fun a b => decide (b ≤ a))
  { totalPeople := s.people.length,
    housedPeople := (s.people.filter (fun p => p.house.isSome)).length,
    houselessPeople := (s.people.filter (fun p => !p.house.isSome)).length,
    totalHouses := s.houses.length,
    occupiedHouses := (s.houses.filter (fun h => h.owner.isSome)).length,
    availableHouses := s.availableHouses.length,
    giniCoefficient := giniCoefficient wealths }

/-- The numeric configuration parameters checked (or not) by
Config.validate; JS numbers modelled by ℚ. -/
structure ConfigData where
  num_houses : ℚ
  num_people : ℚ
  wealth_mean : ℚ
  wealth_std : ℚ
  house_price_mean : ℚ
  house_price_std : ℚ
  value_intrinsicness : ℚ
  turnover_in : ℚ
  turnover_out : ℚ
  upgrade_threshold : ℚ
  n_auction_steps : ℚ
  vacant_depreciation : ℚ
  deriving DecidableEq

/-- Config.validate: the exact list of range checks performed, in source
order.  Note that vacant_depreciation is never checked. -/
def validateConfig (c : ConfigData) : List String :=
  (if c.num_houses ≤ 0 then ["num_houses must be positive"] else []) ++
  (if c.num_people ≤ 0 then ["num_people must be positive"] else []) ++
  (if c.wealth_mean ≤ 0 then ["wealth_mean must be positive"] else []) ++
  (if c.wealth_std ≤ 0 then ["wealth_std must be positive"] else []) ++
  (if c.house_price_mean ≤ 0 then ["house_price_mean must be positive"] else []) ++
  (if c.house_price_std ≤ 0 then ["house_price_std must be positive"] else []) ++
  (if c.value_intrinsicness < 0 ∨ 1 < c.value_intrinsicness then
    ["value_intrinsicness must be between 0 and 1"] else []) ++
  (if c.turnover_in < 0 then ["turnover_in must be non-negative"] else []) ++
  (if c.turnover_out < 0 then ["turnover_out must be non-negative"] else []) ++
  (if c.upgrade_threshold ≤ 0 then ["upgrade_threshold must be positive"] else []) ++
  (if c.n_auction_steps ≤ 0 then ["n_auction_steps must be positive"] else [])

/-- The Config constructor: validate() runs during construction and throws
iff any check failed, before any tick can run. -/
def configConstruct (c : ConfigData) : Except String ConfigData :=
  if (validateConfig c).isEmpty then Except.ok c
  else Except.error ("Configuration validation failed: "
    ++ String.intercalate ", " (validateConfig c))

/-- Modelled from the spec: Participant.should_bid evaluated on dwelling
values computed with the CONFIGURED intrinsicness
(value = intrinsicness · intrinsic_value + (1 − intrinsicness) ·
last_sale_price), as claim C5 reads it.  Used only to compare against the
source's shouldBid, which uses the fixed default weight. -/
def shouldBidSpec (intrinsicness : ℚ) (houses : List House) (p : Person)
    (h : House) (upgradeThreshold : ℚ) : Bool :=
  match p.house with
  | none => decide (h.calculateValue intrinsicness ≤ p.wealth)
  | some hid =>
    match findHouse houses hid with
    | none => false
    | some cur =>
      decide (h.calculateValue intrinsicness ≤ p.wealth) &&
        decide (upgradeThreshold * cur.calculateValue intrinsicness
          ≤ h.calculateValue intrinsicness)

/-- Ownership-link consistency of a population and housing stock: ids are
unique and the owner / house references are mutually inverse.  All
quantifiers are bounded, so it is decidable on concrete states. -/
def InvCore (people : List Person) (houses : List House) : Prop :=
  (people.map Person.id).Nodup ∧
  (houses.map House.id).Nodup ∧
  (∀ h ∈ houses, ∀ pid ∈ h.owner.toList,
    ∃ p ∈ people, p.id = pid ∧ p.house = some h.id) ∧
  (∀ p ∈ people, ∀ hid ∈ p.house.toList,
    ∃ h ∈ houses, h.id = hid ∧ h.owner = some p.id)

/-- Every house whose id is hid (there is at most one) is unowned. -/
def ownerNoneAt (houses : List House) (hid : Nat) : Prop :=
  ∀ h ∈ houses, h.id = hid → h.owner = none

/-- The engine invariant: link consistency, every listed available house
exists and is unowned, the available list has no duplicates, and person
ids stay below the id counter. -/
def InvP (s : MarketState) : Prop :=
  InvCore s.people s.houses ∧
  (∀ hid ∈ s.availableHouses, hid ∈ s.houses.map House.id ∧ ownerNoneAt s.houses hid) ∧
  s.availableHouses.Nodup ∧
  (∀ p ∈ s.people, p.id < s.nextPersonId)

instance (s : MarketState) : Decidable (InvP s) := by
  unfold InvP InvCore ownerNoneAt
  infer_instance

/-- The winners recorded by a list of auction results. -/
def winnersOf (results : List AuctionResult) : List Nat :=
  results.filterMap (fun r => r.winner)

/-! ## Concrete example inputs used by witnesses and counterexamples -/

/-- Three homeless bidders with wealths 700k / 500k / 300k. -/
def c1People : List Person :=
  [⟨1, 700000, none, 2025⟩, ⟨2, 500000, none, 2025⟩, ⟨3, 300000, none, 2025⟩]

/-- A dwelling valued at 300k, affordable to all three bidders. -/
def c1House : House := ⟨1, 300000, 300000, none, 0⟩

/-- One rich homeless participant and two available dwellings, the second
valuable enough to clear the upgrade threshold after winning the first. -/
def c2State : MarketState :=
  { people := [⟨1, 1000000, none, 2024⟩],
    houses := [⟨1, 100000, 100000, none, 1⟩, ⟨2, 500000, 500000, none, 1⟩],
    availableHouses := [1, 2],
    currentYear := 2025, tickCount := 0, nextPersonId := 2,
    lastAuctionResults := [] }

/-- Two auction batches per tick, no turnover, no depreciation. -/
def c2Cfg : Cfg :=
  { turnover_in := 0, turnover_out := 0, n_auction_steps := 2,
    upgrade_threshold := 3/2, value_intrinsicness := 7/10,
    vacant_depreciation := 0 }

/-- No participants at all: every auction fails. -/
def c3State : MarketState :=
  { people := [],
    houses := [⟨1, 100000, 100000, none, 1⟩, ⟨2, 500000, 500000, none, 1⟩],
    availableHouses := [1, 2],
    currentYear := 2025, tickCount := 0, nextPersonId := 1,
    lastAuctionResults := [] }

/-- Two auction batches per tick, no turnover, no depreciation. -/
def c3Cfg : Cfg :=
  { turnover_in := 0, turnover_out := 0, n_auction_steps := 2,
    upgrade_threshold := 3/2, value_intrinsicness := 7/10,
    vacant_depreciation := 0 }

/-- One owner (person 1 owns house 1) and one available, much more valuable
house; the owner will upgrade during the tick. -/
def c4State : MarketState :=
  { people := [⟨1, 1000000, some 1, 2024⟩],
    houses := [⟨1, 100000, 100000, some 1, 1⟩, ⟨2, 500000, 500000, none, 1⟩],
    availableHouses := [2],
    currentYear := 2025, tickCount := 0, nextPersonId := 2,
    lastAuctionResults := [] }

/-- One auction batch per tick, no turnover, no depreciation. -/
def c4Cfg : Cfg :=
  { turnover_in := 0, turnover_out := 0, n_auction_steps := 1,
    upgrade_threshold := 3/2, value_intrinsicness := 7/10,
    vacant_depreciation := 0 }

/-- The upgrade market after one tick (deterministic: no turnover, so the
randomness oracles are irrelevant). -/
def c4Tick1 : MarketState := tick c4Cfg (fun l => l) (fun _ => 0) c4State

/-- The upgrade market after a second tick. -/
def c4Tick2 : MarketState := tick c4Cfg (fun l => l) (fun _ => 0) c4Tick1

/-- Dwelling with huge intrinsic value but zero last sale price: its value
under intrinsicness 0 is 0, under the default 0.7 it is 700000. -/
def c5House : House := ⟨1, 1000000, 0, none, 0⟩

/-- A homeless participant with wealth 100000. -/
def c5Person : Person := ⟨1, 100000, none, 2025⟩

/-- A tiny consistent market: one owner and one vacant house. -/
def w6State : MarketState :=
  { people := [⟨1, 400000, some 1, 2024⟩, ⟨2, 250000, none, 2024⟩],
    houses := [⟨1, 200000, 200000, some 1, 2⟩, ⟨2, 300000, 300000, none, 1⟩],
    availableHouses := [2],
    currentYear := 2025, tickCount := 3, nextPersonId := 3,
    lastAuctionResults := [] }

/-- A configuration exercising turnover and batching on the tiny market. -/
def w6Cfg : Cfg :=
  { turnover_in := 1, turnover_out := 1, n_auction_steps := 2,
    upgrade_threshold := 3/2, value_intrinsicness := 7/10,
    vacant_depreciation := 1/20 }

/-- A two-person market for the turnover-accounting witness. -/
def w7State : MarketState :=
  { people := [⟨1, 400000, some 1, 2024⟩, ⟨2, 250000, none, 2024⟩],
    houses := [⟨1, 200000, 200000, some 1, 2⟩],
    availableHouses := [],
    currentYear := 2025, tickCount := 0, nextPersonId := 3,
    lastAuctionResults := [] }

/-- One exit and one entry per tick. -/
def w7Cfg : Cfg :=
  { turnover_in := 1, turnover_out := 1, n_auction_steps := 1,
    upgrade_threshold := 3/2, value_intrinsicness := 7/10,
    vacant_depreciation := 0 }

/-- One occupied and one vacant dwelling for the depreciation witness. -/
def w8State : MarketState :=
  { people := [⟨1, 400000, some 1, 2024⟩],
    houses := [⟨1, 200000, 200000, some 1, 2⟩, ⟨2, 100000, 90000, none, 1⟩],
    availableHouses := [2],
    currentYear := 2025, tickCount := 0, nextPersonId := 2,
    lastAuctionResults := [] }

/-- A three-person population with unequal wealths for the Gini witness. -/
def w9State : MarketState :=
  { people := [⟨1, 700000, none, 2024⟩, ⟨2, 500000, none, 2024⟩,
      ⟨3, 300000, none, 2024⟩],
    houses := [],
    availableHouses := [],
    currentYear := 2025, tickCount := 0, nextPersonId := 4,
    lastAuctionResults := [] }

/-- All parameters in range except vacant_depreciation = 0.9, far outside
the documented [0, ~0.2] range. -/
def c10Bad : ConfigData :=
  { num_houses := 100, num_people := 100, wealth_mean := 300000,
    wealth_std := 200000, house_price_mean := 300000, house_price_std := 150000,
    value_intrinsicness := 7/10, turnover_in := 2, turnover_out := 2,
    upgrade_threshold := 3/2, n_auction_steps := 3, vacant_depreciation := 9/10 }

/-! ## Helper lemmas -/

theorem findPerson_eq_some {people : List Person} {pid : Nat} {p : Person}
    (h : findPerson people pid = some p) : p ∈ people ∧ p.id = pid := by
  unfold findPerson at h
  refine ⟨List.mem_of_find?_eq_some h, ?_⟩
  have hs := List.find?_some h
  simpa using hs

theorem findHouse_eq_some {houses : List House} {hid : Nat} {h : House}
    (hf : findHouse houses hid = some h) : h ∈ houses ∧ h.id = hid := by
  unfold findHouse at hf
  refine ⟨List.mem_of_find?_eq_some hf, ?_⟩
  have hs := List.find?_some hf
  simpa using hs

theorem findPerson_isSome_of_mem {people : List Person} {pid : Nat}
    (hp : pid ∈ people.map Person.id) : ∃ p, findPerson people pid = some p := by
  obtain ⟨q, hq, hqid⟩ := List.mem_map.1 hp
  unfold findPerson
  have : (people.find? (fun p => p.id == pid)).isSome := by
    rw [List.find?_isSome]
    exact ⟨q, hq, by simp [hqid]⟩
  exact Option.isSome_iff_exists.1 this

theorem findPerson_nodup_mem {people : List Person} {p : Person} {pid : Nat}
    (nd : (people.map Person.id).Nodup) (hp : p ∈ people) (he : p.id = pid) :
    findPerson people pid = some p := by
  induction people with
  | nil => cases hp
  | cons q qs ih =>
    rcases List.mem_cons.1 hp with hq | hq
    · subst hq
      unfold findPerson
      exact List.find?_cons_of_pos _ (by simp [he])
    · have hne : q.id ≠ pid := by
        intro hcontra
        have hmem : p.id ∈ qs.map Person.id := List.mem_map.2 ⟨p, hq, rfl⟩
        simp only [List.map_cons, List.nodup_cons] at nd
        exact nd.1 (by rw [hcontra, ← he] at *; exact hmem)
      unfold findPerson at *
      rw [List.find?_cons_of_neg _ (by simp [hne])]
      exact ih (by simp only [List.map_cons, List.nodup_cons] at nd; exact nd.2) hq

theorem mem_nodup_id_unique {people : List Person} {p q : Person}
    (nd : (people.map Person.id).Nodup) (hp : p ∈ people) (hq : q ∈ people)
    (he : p.id = q.id) : p = q :=
  List.inj_on_of_nodup_map nd hp hq he

theorem mem_nodup_houseId_unique {houses : List House} {h g : House}
    (nd : (houses.map House.id).Nodup) (hh : h ∈ houses) (hg : g ∈ houses)
    (he : h.id = g.id) : h = g :=
  List.inj_on_of_nodup_map nd hh hg he

theorem updPerson_map_id (people : List Person) (pid : Nat) (g : Person → Person)
    (hg : ∀ q, (g q).id = q.id) :
    (updPerson people pid g).map Person.id = people.map Person.id := by
  unfold updPerson
  rw [List.map_map]
  apply List.map_congr_left
  intro q _
  by_cases hq : q.id = pid <;> simp [hq, hg]

theorem updHouse_map_id (houses : List House) (hid : Nat) (g : House → House)
    (hg : ∀ h, (g h).id = h.id) :
    (updHouse houses hid g).map House.id = houses.map House.id := by
  unfold updHouse
  rw [List.map_map]
  apply List.map_congr_left
  intro h _
  by_cases hh : h.id = hid <;> simp [hh, hg]

theorem findPerson_updPerson_ne (people : List Person) (pid pid' : Nat)
    (g : Person → Person) (hg : ∀ q, (g q).id = q.id) (hne : pid ≠ pid') :
    findPerson (updPerson people pid' g) pid = findPerson people pid := by
  unfold findPerson updPerson
  rw [List.find?_map]
  have hpred : ((fun p : Person => p.id == pid) ∘ fun q => if q.id = pid' then g q else q)
      = (fun p : Person => p.id == pid) := by
    funext q
    by_cases hq : q.id = pid' <;> simp [hq, hg]
  rw [hpred]
  cases hf : people.find? (fun p => p.id == pid) with
  | none => rfl
  | some q =>
    have hq : q.id = pid := by simpa using List.find?_some hf
    have hq' : ¬ q.id = pid' := by rw [hq]; exact hne
    simp [hf, hq']

theorem sellHouseUpd_eq_of_none {people : List Person} {houses : List House} {pid : Nat}
    (hf : findPerson people pid = none) :
    sellHouseUpd people houses pid = (people, houses) := by
  simp only [sellHouseUpd, hf]

theorem sellHouseUpd_eq_of_nohouse {people : List Person} {houses : List House}
    {pid : Nat} {p : Person} (hf : findPerson people pid = some p)
    (hph : p.house = none) :
    sellHouseUpd people houses pid = (people, houses) := by
  simp only [sellHouseUpd, hf, hph]

theorem sellHouseUpd_eq_of_house {people : List Person} {houses : List House}
    {pid : Nat} {p : Person} {hid : Nat} (hf : findPerson people pid = some p)
    (hph : p.house = some hid) :
    sellHouseUpd people houses pid =
      (updPerson people pid (fun q => { q with house := none }),
       updHouse houses hid (fun h => { h with owner := none, yearsSinceOwnership := 0 })) := by
  simp only [sellHouseUpd, hf, hph]

theorem buyHouseUpd_eq_of_none {people : List Person} {houses : List House}
    {pid hid : Nat} {price : ℚ} (hf : findPerson people pid = none) :
    buyHouseUpd people houses pid hid price = (people, houses) := by
  simp only [buyHouseUpd, hf]

theorem buyHouseUpd_eq_of_nohouse {people : List Person} {houses : List House}
    {pid hid : Nat} {price : ℚ} {p : Person} (hf : findPerson people pid = some p)
    (hph : p.house = none) :
    buyHouseUpd people houses pid hid price =
      (updPerson people pid (fun q => { q with house := some hid }),
       updHouse houses hid (fun h =>
         { h with
           owner := some pid,
           lastSellingPrice := price,
           yearsSinceOwnership := 0 })) := by
  simp only [buyHouseUpd, hf, hph]

theorem buyHouseUpd_eq_of_house {people : List Person} {houses : List House}
    {pid hid : Nat} {price : ℚ} {p : Person} {oldh : Nat}
    (hf : findPerson people pid = some p) (hph : p.house = some oldh) :
    buyHouseUpd people houses pid hid price =
      (updPerson (sellHouseUpd people houses pid).1 pid
        (fun q => { q with house := some hid }),
       updHouse (sellHouseUpd people houses pid).2 hid (fun h =>
         { h with
           owner := some pid,
           lastSellingPrice := price,
           yearsSinceOwnership := 0 })) := by
  simp only [buyHouseUpd, hf, hph]

theorem sellHouseUpd_map_ids (people : List Person) (houses : List House) (pid : Nat) :
    (sellHouseUpd people houses pid).1.map Person.id = people.map Person.id ∧
    (sellHouseUpd people houses pid).2.map House.id = houses.map House.id := by
  cases hf : findPerson people pid with
  | none => rw [sellHouseUpd_eq_of_none hf]; exact ⟨rfl, rfl⟩
  | some p =>
    cases hph : p.house with
    | none => rw [sellHouseUpd_eq_of_nohouse hf hph]; exact ⟨rfl, rfl⟩
    | some hid =>
      rw [sellHouseUpd_eq_of_house hf hph]
      exact ⟨updPerson_map_id _ _ _ (fun q => rfl), updHouse_map_id _ _ _ (fun h => rfl)⟩

theorem buyHouseUpd_map_ids (people : List Person) (houses : List House)
    (pid hid : Nat) (price : ℚ) :
    (buyHouseUpd people houses pid hid price).1.map Person.id = people.map Person.id ∧
    (buyHouseUpd people houses pid hid price).2.map House.id = houses.map House.id := by
  cases hf : findPerson people pid with
  | none => rw [buyHouseUpd_eq_of_none hf]; exact ⟨rfl, rfl⟩
  | some p =>
    cases hph : p.house with
    | none =>
      rw [buyHouseUpd_eq_of_nohouse hf hph]
      exact ⟨updPerson_map_id _ _ _ (fun q => rfl), updHouse_map_id _ _ _ (fun h => rfl)⟩
    | some oldh =>
      rw [buyHouseUpd_eq_of_house hf hph]
      constructor
      · rw [updPerson_map_id _ _ (fun q => { q with house := some hid }) (fun q => rfl)]
        exact (sellHouseUpd_map_ids people houses pid).1
      · rw [updHouse_map_id _ _ (fun h => { h with owner := some pid, lastSellingPrice := price, yearsSinceOwnership := 0 }) (fun h => rfl)]
        exact (sellHouseUpd_map_ids people houses pid).2

theorem execBuys_map_ids (buys : List (Nat × Nat × ℚ)) (people : List Person)
    (houses : List House) :
    (execBuys buys people houses).1.map Person.id = people.map Person.id ∧
    (execBuys buys people houses).2.map House.id = houses.map House.id := by
  induction buys generalizing people houses with
  | nil => exact ⟨rfl, rfl⟩
  | cons b bs ih =>
    have hstep := buyHouseUpd_map_ids people houses b.1 b.2.1 b.2.2
    have hrest := ih (buyHouseUpd people houses b.1 b.2.1 b.2.2).1
      (buyHouseUpd people houses b.1 b.2.1 b.2.2).2
    unfold execBuys at *
    simp only [List.foldl_cons]
    exact ⟨hrest.1.trans hstep.1, hrest.2.trans hstep.2⟩

theorem ownerNoneAt_updHouse_of_ne {houses : List House} {hid₀ : Nat}
    {g : House → House} {hid : Nat} (hgid : ∀ h, (g h).id = h.id)
    (hne : hid ≠ hid₀) (h0 : ownerNoneAt houses hid) :
    ownerNoneAt (updHouse houses hid₀ g) hid := by
  intro h' hh' hid'
  simp only [updHouse, List.mem_map] at hh'
  obtain ⟨h₁, hmem, himg⟩ := hh'
  by_cases hc : h₁.id = hid₀
  · rw [if_pos hc] at himg
    exfalso
    apply hne
    rw [← hid', ← himg, hgid, hc]
  · rw [if_neg hc] at himg
    subst himg
    exact h0 h₁ hmem hid'

theorem ownerNoneAt_updHouse_clear {houses : List House} {hid₀ : Nat}
    {g : House → House} {hid : Nat} (hgown : ∀ h, (g h).owner = none)
    (h0 : ownerNoneAt houses hid) :
    ownerNoneAt (updHouse houses hid₀ g) hid := by
  intro h' hh' hid'
  simp only [updHouse, List.mem_map] at hh'
  obtain ⟨h₁, hmem, himg⟩ := hh'
  by_cases hc : h₁.id = hid₀
  · rw [if_pos hc] at himg
    rw [← himg]
    exact hgown h₁
  · rw [if_neg hc] at himg
    subst himg
    exact h0 h₁ hmem hid'

theorem ownerNoneAt_sellHouseUpd {people : List Person} {houses : List House}
    {pid hid : Nat} (h0 : ownerNoneAt houses hid) :
    ownerNoneAt (sellHouseUpd people houses pid).2 hid := by
  cases hf : findPerson people pid with
  | none => rw [sellHouseUpd_eq_of_none hf]; exact h0
  | some p =>
    cases hph : p.house with
    | none => rw [sellHouseUpd_eq_of_nohouse hf hph]; exact h0
    | some oldh =>
      rw [sellHouseUpd_eq_of_house hf hph]
      exact ownerNoneAt_updHouse_clear (fun h => rfl) h0

theorem ownerNoneAt_buyHouseUpd {people : List Person} {houses : List House}
    {pid hid hid' : Nat} {price : ℚ} (hne : hid' ≠ hid)
    (h0 : ownerNoneAt houses hid') :
    ownerNoneAt (buyHouseUpd people houses pid hid price).2 hid' := by
  cases hf : findPerson people pid with
  | none => rw [buyHouseUpd_eq_of_none hf]; exact h0
  | some p =>
    cases hph : p.house with
    | none =>
      rw [buyHouseUpd_eq_of_nohouse hf hph]
      exact ownerNoneAt_updHouse_of_ne (fun h => rfl) hne h0
    | some oldh =>
      rw [buyHouseUpd_eq_of_house hf hph]
      exact ownerNoneAt_updHouse_of_ne (fun h => rfl) hne (ownerNoneAt_sellHouseUpd h0)

theorem sellHouseUpd_invCore {people : List Person} {houses : List House} {pid : Nat}
    (inv : InvCore people houses) :
    InvCore (sellHouseUpd people houses pid).1 (sellHouseUpd people houses pid).2 := by
  obtain ⟨ndP, ndH, ownL, houseL⟩ := inv
  cases hf : findPerson people pid with
  | none => rw [sellHouseUpd_eq_of_none hf]; exact ⟨ndP, ndH, ownL, houseL⟩
  | some p =>
    cases hph : p.house with
    | none => rw [sellHouseUpd_eq_of_nohouse hf hph]; exact ⟨ndP, ndH, ownL, houseL⟩
    | some hid =>
      rw [sellHouseUpd_eq_of_house hf hph]
      obtain ⟨hpmem, hpid⟩ := findPerson_eq_some hf
      obtain ⟨h₁, hh₁mem, hh₁id, hh₁own⟩ := houseL p hpmem hid (by rw [hph]; simp)
      refine ⟨?_, ?_, ?_, ?_⟩
      · rw [updPerson_map_id _ _ (fun q => { q with house := none }) (fun q => rfl)]
        exact ndP
      · rw [updHouse_map_id _ _ (fun h => { h with owner := none, yearsSinceOwnership := 0 }) (fun h => rfl)]
        exact ndH
      · intro h' hh' pid' hpid'
        simp only [updHouse, List.mem_map] at hh'
        obtain ⟨h₀, hh₀, himg⟩ := hh'
        by_cases hcase : h₀.id = hid
        · rw [if_pos hcase] at himg
          rw [← himg] at hpid'
          simp at hpid'
        · rw [if_neg hcase] at himg
          subst himg
          obtain ⟨p₀, hp₀mem, hp₀id, hp₀house⟩ := ownL h₀ hh₀ pid' hpid'
          have hp₀ne : p₀.id ≠ pid := by
            intro hcontra
            have hpp : p₀ = p := mem_nodup_id_unique ndP hp₀mem hpmem (hcontra.trans hpid.symm)
            rw [hpp, hph] at hp₀house
            exact hcase (Option.some.inj hp₀house).symm
          refine ⟨p₀, ?_, hp₀id, hp₀house⟩
          simp only [updPerson, List.mem_map]
          exact ⟨p₀, hp₀mem, by rw [if_neg hp₀ne]⟩
      · intro p' hp' hid' hhid'
        simp only [updPerson, List.mem_map] at hp'
        obtain ⟨q, hqmem, hqimg⟩ := hp'
        by_cases hcase : q.id = pid
        · rw [if_pos hcase] at hqimg
          rw [← hqimg] at hhid'
          simp at hhid'
        · rw [if_neg hcase] at hqimg
          subst hqimg
          obtain ⟨h₀, hh₀mem, hh₀id, hh₀own⟩ := houseL q hqmem hid' hhid'
          have hh₀ne : h₀.id ≠ hid := by
            intro hcontra
            have hhh : h₀ = h₁ := mem_nodup_houseId_unique ndH hh₀mem hh₁mem
              (hcontra.trans hh₁id.symm)
            rw [hhh, hh₁own] at hh₀own
            exact hcase ((Option.some.inj hh₀own).symm.trans hpid)
          refine ⟨h₀, ?_, hh₀id, hh₀own⟩
          simp only [updHouse, List.mem_map]
          exact ⟨h₀, hh₀mem, by rw [if_neg hh₀ne]⟩

theorem assign_invCore {people : List Person} {houses : List House}
    {pid hid : Nat} {price : ℚ} (inv : InvCore people houses)
    (hp : ∃ p ∈ people, p.id = pid ∧ p.house = none)
    (hh : hid ∈ houses.map House.id) (hnone : ownerNoneAt houses hid) :
    InvCore
      (updPerson people pid (fun q => { q with house := some hid }))
      (updHouse houses hid (fun h =>
        { h with
          owner := some pid,
          lastSellingPrice := price,
          yearsSinceOwnership := 0 })) := by
  obtain ⟨ndP, ndH, ownL, houseL⟩ := inv
  obtain ⟨p, hpmem, hpid, hphouse⟩ := hp
  refine ⟨?_, ?_, ?_, ?_⟩
  · rw [updPerson_map_id _ _ (fun q => { q with house := some hid }) (fun q => rfl)]
    exact ndP
  · rw [updHouse_map_id _ _ (fun h => { h with owner := some pid, lastSellingPrice := price, yearsSinceOwnership := 0 }) (fun h => rfl)]
    exact ndH
  · intro h' hh' pid' hpid'
    simp only [updHouse, List.mem_map] at hh'
    obtain ⟨h₀, hh₀, himg⟩ := hh'
    by_cases hcase : h₀.id = hid
    · rw [if_pos hcase] at himg
      have hown : h'.owner = some pid := by rw [← himg]
      have hid' : h'.id = hid := by rw [← himg]; exact hcase
      rw [hown] at hpid'
      simp only [Option.toList_some, List.mem_singleton] at hpid'
      subst hpid'
      refine ⟨{ p with house := some hid }, ?_, hpid, by rw [hid']⟩
      simp only [updPerson, List.mem_map]
      exact ⟨p, hpmem, by rw [if_pos hpid]⟩
    · rw [if_neg hcase] at himg
      subst himg
      obtain ⟨p₀, hp₀mem, hp₀id, hp₀house⟩ := ownL h₀ hh₀ pid' hpid'
      have hp₀ne : p₀.id ≠ pid := by
        intro hcontra
        have hpp : p₀ = p := mem_nodup_id_unique ndP hp₀mem hpmem (hcontra.trans hpid.symm)
        rw [hpp, hphouse] at hp₀house
        cases hp₀house
      refine ⟨p₀, ?_, hp₀id, hp₀house⟩
      simp only [updPerson, List.mem_map]
      exact ⟨p₀, hp₀mem, by rw [if_neg hp₀ne]⟩
  · intro p' hp' hid' hhid'
    simp only [updPerson, List.mem_map] at hp'
    obtain ⟨q, hqmem, hqimg⟩ := hp'
    by_cases hcase : q.id = pid
    · rw [if_pos hcase] at hqimg
      have hqh : p'.house = some hid := by rw [← hqimg]
      have hqi : p'.id = pid := by rw [← hqimg]; exact hcase
      rw [hqh] at hhid'
      simp only [Option.toList_some, List.mem_singleton] at hhid'
      subst hhid'
      obtain ⟨h₀, hh₀mem, hh₀id⟩ := List.mem_map.1 hh
      refine ⟨{ h₀ with owner := some pid, lastSellingPrice := price, yearsSinceOwnership := 0 }, ?_, hh₀id, by rw [hqi]⟩
      simp only [updHouse, List.mem_map]
      exact ⟨h₀, hh₀mem, by rw [if_pos hh₀id]⟩
    · rw [if_neg hcase] at hqimg
      subst hqimg
      obtain ⟨h₀, hh₀mem, hh₀id, hh₀own⟩ := houseL q hqmem hid' hhid'
      have hh₀ne : h₀.id ≠ hid := by
        intro hcontra
        have := hnone h₀ hh₀mem hcontra
        rw [this] at hh₀own
        cases hh₀own
      refine ⟨h₀, ?_, hh₀id, hh₀own⟩
      simp only [updHouse, List.mem_map]
      exact ⟨h₀, hh₀mem, by rw [if_neg hh₀ne]⟩

theorem buyHouseUpd_invCore {people : List Person} {houses : List House}
    {pid hid : Nat} {price : ℚ} (inv : InvCore people houses)
    (hp : pid ∈ people.map Person.id) (hh : hid ∈ houses.map House.id)
    (hnone : ownerNoneAt houses hid) :
    InvCore (buyHouseUpd people houses pid hid price).1
      (buyHouseUpd people houses pid hid price).2 := by
  obtain ⟨p, hf⟩ := findPerson_isSome_of_mem hp
  obtain ⟨hpmem, hpid⟩ := findPerson_eq_some hf
  cases hph : p.house with
  | none =>
    rw [buyHouseUpd_eq_of_nohouse hf hph]
    exact assign_invCore inv ⟨p, hpmem, hpid, hph⟩ hh hnone
  | some oldh =>
    rw [buyHouseUpd_eq_of_house hf hph]
    have inv' := @sellHouseUpd_invCore people houses pid inv
    rw [sellHouseUpd_eq_of_house hf hph] at inv'
    have hsell := sellHouseUpd_map_ids people houses pid
    rw [sellHouseUpd_eq_of_house hf hph] at hsell
    have hp' : ∃ p' ∈ updPerson people pid (fun q => { q with house := none }),
        p'.id = pid ∧ p'.house = none := by
      refine ⟨{ p with house := none }, ?_, hpid, rfl⟩
      simp only [updPerson, List.mem_map]
      exact ⟨p, hpmem, by rw [if_pos hpid]⟩
    have hh' : hid ∈ (updHouse houses oldh
        (fun h => { h with owner := none, yearsSinceOwnership := 0 })).map House.id := by
      rw [updHouse_map_id _ _ (fun h => { h with owner := none, yearsSinceOwnership := 0 }) (fun h => rfl)]
      exact hh
    have hnone' : ownerNoneAt (updHouse houses oldh
        (fun h => { h with owner := none, yearsSinceOwnership := 0 })) hid :=
      ownerNoneAt_updHouse_clear (fun h => rfl) hnone
    have := @assign_invCore _ _ _ _ price inv' hp' hh' hnone'
    rw [sellHouseUpd_eq_of_house hf hph]
    exact this

theorem execBuys_cons (b : Nat × Nat × ℚ) (bs : List (Nat × Nat × ℚ))
    (people : List Person) (houses : List House) :
    execBuys (b :: bs) people houses
      = execBuys bs (buyHouseUpd people houses b.1 b.2.1 b.2.2).1
          (buyHouseUpd people houses b.1 b.2.1 b.2.2).2 := rfl

theorem execBuys_invCore {buys : List (Nat × Nat × ℚ)} {people : List Person}
    {houses : List House} (inv : InvCore people houses)
    (hb : ∀ b ∈ buys, b.1 ∈ people.map Person.id ∧ b.2.1 ∈ houses.map House.id ∧
      ownerNoneAt houses b.2.1)
    (nd : (buys.map (fun b => b.2.1)).Nodup) :
    InvCore (execBuys buys people houses).1 (execBuys buys people houses).2 ∧
    (∀ hid, hid ∉ buys.map (fun b => b.2.1) → ownerNoneAt houses hid →
      ownerNoneAt (execBuys buys people houses).2 hid) := by
  induction buys generalizing people houses with
  | nil => exact ⟨inv, fun hid _ h0 => h0⟩
  | cons b bs ih =>
    obtain ⟨hbp, hbh, hbnone⟩ := hb b (List.mem_cons_self _ _)
    have step := @buyHouseUpd_invCore _ _ _ _ b.2.2 inv hbp hbh hbnone
    have hids := buyHouseUpd_map_ids people houses b.1 b.2.1 b.2.2
    simp only [List.map_cons, List.nodup_cons] at nd
    have hb' : ∀ b' ∈ bs,
        b'.1 ∈ (buyHouseUpd people houses b.1 b.2.1 b.2.2).1.map Person.id ∧
        b'.2.1 ∈ (buyHouseUpd people houses b.1 b.2.1 b.2.2).2.map House.id ∧
        ownerNoneAt (buyHouseUpd people houses b.1 b.2.1 b.2.2).2 b'.2.1 := by
      intro b' hbm
      obtain ⟨h1, h2, h3⟩ := hb b' (List.mem_cons_of_mem _ hbm)
      refine ⟨by rw [hids.1]; exact h1, by rw [hids.2]; exact h2, ?_⟩
      refine ownerNoneAt_buyHouseUpd ?_ h3
      intro hcontra
      exact nd.1 (hcontra ▸ List.mem_map.2 ⟨b', hbm, rfl⟩)
    have IH := ih step hb' nd.2
    rw [execBuys_cons]
    refine ⟨IH.1, ?_⟩
    intro hid hnm h0
    simp only [List.map_cons, List.mem_cons, not_or] at hnm
    have h0' : ownerNoneAt (buyHouseUpd people houses b.1 b.2.1 b.2.2).2 hid :=
      ownerNoneAt_buyHouseUpd hnm.1 h0
    exact IH.2 hid hnm.2 h0'

theorem bidSortLe_trans : ∀ a b c : Person × ℚ,
    bidSortLe a b = true → bidSortLe b c = true → bidSortLe a c = true := by
  intro a b c hab hbc
  simp only [bidSortLe, decide_eq_true_eq] at *
  exact le_trans hbc hab

theorem bidSortLe_total : ∀ a b : Person × ℚ,
    (bidSortLe a b || bidSortLe b a) = true := by
  intro a b
  simp only [bidSortLe, Bool.or_eq_true, decide_eq_true_eq]
  exact le_total b.2 a.2

theorem auctionSingleHouse_eq_of_no_bidders {people : List Person}
    {houses : List House} {h : House} {vi ut : ℚ} {aw : List Nat}
    (hempty : people.filter (fun p => !(aw.contains p.id) && p.shouldBid houses h ut) = []) :
    auctionSingleHouse people houses h vi ut aw =
      { houseId := h.id, winner := none, winningBid := 0, secondPrice := 0,
        bidderCount := 0 } := by
  simp only [auctionSingleHouse, hempty]
  rfl

theorem auctionSingleHouse_eq_of_sorted {people : List Person}
    {houses : List House} {h : House} {vi ut : ℚ} {aw : List Nat}
    {wb : Person × ℚ} {rest : List (Person × ℚ)}
    (hsnil : (((people.filter (fun p => !(aw.contains p.id) && p.shouldBid houses h ut)).map
      (fun p => (p, p.getBidAmount))).mergeSort bidSortLe) = wb :: rest) :
    auctionSingleHouse people houses h vi ut aw =
      { houseId := h.id, winner := some wb.1.id, winningBid := wb.2,
        secondPrice := match rest with | [] => wb.2 * (3/4) | sb :: _ => sb.2,
        bidderCount :=
          (people.filter (fun p => !(aw.contains p.id) && p.shouldBid houses h ut)).length } := by
  have hfilter_ne :
      (people.filter (fun p => !(aw.contains p.id) && p.shouldBid houses h ut)).isEmpty
        = false := by
    rw [List.isEmpty_eq_false_iff_exists_mem]
    have hlen := congrArg List.length hsnil
    rw [List.length_mergeSort, List.length_map] at hlen
    rcases hx : people.filter (fun p => !(aw.contains p.id) && p.shouldBid houses h ut) with
      _ | ⟨a, as⟩
    · rw [hx] at hlen; simp at hlen
    · exact ⟨a, by rw [hx]; exact List.mem_cons_self _ _⟩
  simp only [auctionSingleHouse, hfilter_ne, Bool.false_eq_true, if_false, hsnil]
  cases rest <;> rfl

/-- The winner of a single-house auction is one of the eligible bidders and
bids their full wealth, the winning bid is maximal among all eligible bids,
a single bidder pays 75% of their bid, and with ≥ 2 bidders the clearing
price is the second-highest bid (the maximum of the bids after removing one
occurrence of the winning bid). -/
theorem auctionSingleHouse_spec (people : List Person) (houses : List House)
    (h : House) (vi ut : ℚ) (aw : List Nat)
    (hne : people.filter (fun p => !(aw.contains p.id) && p.shouldBid houses h ut) ≠ []) :
    ∃ p ∈ people.filter (fun p => !(aw.contains p.id) && p.shouldBid houses h ut),
      (auctionSingleHouse people houses h vi ut aw).winner = some p.id ∧
      (auctionSingleHouse people houses h vi ut aw).winningBid = p.wealth ∧
      (∀ q ∈ people.filter (fun p => !(aw.contains p.id) && p.shouldBid houses h ut),
        q.wealth ≤ (auctionSingleHouse people houses h vi ut aw).winningBid) ∧
      ((people.filter (fun p => !(aw.contains p.id) && p.shouldBid houses h ut)).length = 1 →
        (auctionSingleHouse people houses h vi ut aw).secondPrice
          = (auctionSingleHouse people houses h vi ut aw).winningBid * (3/4)) ∧
      (2 ≤ (people.filter (fun p => !(aw.contains p.id) && p.shouldBid houses h ut)).length →
        (auctionSingleHouse people houses h vi ut aw).secondPrice ∈
          ((people.filter (fun p => !(aw.contains p.id) && p.shouldBid houses h ut)).map
            Person.wealth).erase
            (auctionSingleHouse people houses h vi ut aw).winningBid ∧
        (∀ x ∈ ((people.filter
            (fun p => !(aw.contains p.id) && p.shouldBid houses h ut)).map
            Person.wealth).erase
            (auctionSingleHouse people houses h vi ut aw).winningBid,
          x ≤ (auctionSingleHouse people houses h vi ut aw).secondPrice)) := by
  set bidders := people.filter (fun p => !(aw.contains p.id) && p.shouldBid houses h ut)
    with hbiddersdef
  have hperm : ((bidders.map (fun p => (p, p.getBidAmount))).mergeSort bidSortLe).Perm
      (bidders.map (fun p => (p, p.getBidAmount))) :=
    List.mergeSort_perm _ _
  have hsorted : List.Pairwise (fun a b => bidSortLe a b = true)
      ((bidders.map (fun p => (p, p.getBidAmount))).mergeSort bidSortLe) :=
    List.sorted_mergeSort bidSortLe_trans bidSortLe_total _
  cases hsnil : (bidders.map (fun p => (p, p.getBidAmount))).mergeSort bidSortLe with
  | nil =>
    exfalso
    have hlen := congrArg List.length hsnil
    rw [List.length_mergeSort, List.length_map] at hlen
    exact hne (List.length_eq_zero.1 hlen)
  | cons wb rest =>
    rw [hsnil] at hperm hsorted
    have hr := @auctionSingleHouse_eq_of_sorted _ _ _ vi _ _ _ _ hsnil
    have hwbmem : wb ∈ bidders.map (fun p => (p, p.getBidAmount)) :=
      hperm.mem_iff.1 (List.mem_cons_self _ _)
    obtain ⟨p, hpmem, hpimg⟩ := List.mem_map.1 hwbmem
    have hwb1 : wb.1 = p := by rw [← hpimg]
    have hwb2 : wb.2 = p.wealth := by rw [← hpimg]; rfl
    have hmax : ∀ q ∈ bidders, q.wealth ≤ wb.2 := by
      intro q hq
      have hqmem : (q, q.getBidAmount) ∈ wb :: rest :=
        hperm.mem_iff.2 (List.mem_map.2 ⟨q, hq, rfl⟩)
      rcases List.mem_cons.1 hqmem with hqe | hqr
      · rw [← hqe]; exact le_refl _
      · have := (List.pairwise_cons.1 hsorted).1 _ hqr
        simp only [bidSortLe, decide_eq_true_eq] at this
        exact this
    refine ⟨p, hpmem, ?_, ?_, ?_, ?_, ?_⟩
    · rw [hr, ← hwb1]
    · rw [hr, hwb2]
    · intro q hq
      rw [hr]
      exact hmax q hq
    · intro hlen1
      rw [hr]
      have hlen : (wb :: rest).length = 1 := by
        have := congrArg List.length hsnil
        rw [List.length_mergeSort, List.length_map, hlen1] at this
        exact this.symm
      cases rest with
      | nil => rfl
      | cons sb rest' => simp at hlen
    · intro hlen2
      have hlen : 2 ≤ (wb :: rest).length := by
        have := congrArg List.length hsnil
        rw [List.length_mergeSort, List.length_map] at this
        rw [← this]
        exact hlen2
      cases rest with
      | nil => simp at hlen
      | cons sb rest' =>
        rw [hr]
        have hsndperm : ((wb :: sb :: rest').map Prod.snd).Perm
            ((bidders.map (fun p => (p, p.getBidAmount))).map Prod.snd) :=
          hperm.map Prod.snd
        have hW : (bidders.map (fun p => (p, p.getBidAmount))).map Prod.snd
            = bidders.map Person.wealth := by
          rw [List.map_map]
          rfl
        rw [hW] at hsndperm
        have heraseperm : (((wb :: sb :: rest').map Prod.snd).erase wb.2).Perm
            ((bidders.map Person.wealth).erase wb.2) :=
          hsndperm.erase wb.2
        have herase : ((wb :: sb :: rest').map Prod.snd).erase wb.2
            = sb.2 :: rest'.map Prod.snd := by
          simp only [List.map_cons]
          rw [List.erase_cons_head]
        rw [herase] at heraseperm
        have hbound : ∀ x ∈ sb.2 :: rest'.map Prod.snd, x ≤ sb.2 := by
          intro x hx
          rcases List.mem_cons.1 hx with hxe | hxr
          · rw [hxe]
          · obtain ⟨y, hy, hyx⟩ := List.mem_map.1 hxr
            have hrel := (List.pairwise_cons.1 (List.pairwise_cons.1 hsorted).2).1 y hy
            simp only [bidSortLe, decide_eq_true_eq] at hrel
            rw [← hyx]
            exact hrel
        constructor
        · exact heraseperm.mem_iff.1 (List.mem_cons_self _ _)
        · intro x hx
          exact hbound x (heraseperm.mem_iff.2 hx)

theorem auctionSingleHouse_houseId (people : List Person) (houses : List House)
    (h : House) (vi ut : ℚ) (aw : List Nat) :
    (auctionSingleHouse people houses h vi ut aw).houseId = h.id := by
  simp only [auctionSingleHouse]
  split
  · rfl
  · split <;> rfl

theorem auctionSingleHouse_winner_cases {people : List Person} {houses : List House}
    {h : House} {vi ut : ℚ} {aw : List Nat} {w : Nat}
    (hw : (auctionSingleHouse people houses h vi ut aw).winner = some w) :
    ∃ p ∈ people, p.id = w ∧ aw.contains p.id = false ∧
      p.shouldBid houses h ut = true := by
  by_cases hempty :
      people.filter (fun p => !(aw.contains p.id) && p.shouldBid houses h ut) = []
  · rw [auctionSingleHouse_eq_of_no_bidders hempty] at hw
    cases hw
  · cases hsnil : ((people.filter
        (fun p => !(aw.contains p.id) && p.shouldBid houses h ut)).map
        (fun p => (p, p.getBidAmount))).mergeSort bidSortLe with
    | nil =>
      exfalso
      have hlen := congrArg List.length hsnil
      rw [List.length_mergeSort, List.length_map] at hlen
      exact hempty (List.length_eq_zero.1 hlen)
    | cons wb rest =>
      rw [auctionSingleHouse_eq_of_sorted hsnil] at hw
      have hwid : wb.1.id = w := Option.some.inj hw
      have hwbmem : wb ∈ (people.filter
          (fun p => !(aw.contains p.id) && p.shouldBid houses h ut)).map
          (fun p => (p, p.getBidAmount)) :=
        (List.mergeSort_perm _ bidSortLe).symm.mem_iff.2 (hsnil ▸ List.mem_cons_self _ _)
      obtain ⟨p, hpmem, hpimg⟩ := List.mem_map.1 hwbmem
      have hwb1 : wb.1 = p := by rw [← hpimg]
      obtain ⟨hpmem', hpred⟩ := List.mem_filter.1 hpmem
      simp only [Bool.and_eq_true, Bool.not_eq_true'] at hpred
      exact ⟨p, hpmem', by rw [← hwid, hwb1], hpred.1, hpred.2⟩

theorem conductVickreyAuctionAux_cons (people : List Person) (houses : List House)
    (vi ut : ℚ) (aw : List Nat) (h : House) (hs : List House) :
    conductVickreyAuctionAux people houses vi ut aw (h :: hs)
      = auctionSingleHouse people houses h vi ut aw ::
        conductVickreyAuctionAux people houses vi ut
          (match (auctionSingleHouse people houses h vi ut aw).winner with
           | some w => aw ++ [w]
           | none => aw) hs := rfl

theorem conductVickreyAuctionAux_map_houseId (people : List Person)
    (houses : List House) (vi ut : ℚ) :
    ∀ (hs : List House) (aw : List Nat),
      (conductVickreyAuctionAux people houses vi ut aw hs).map (fun r => r.houseId)
        = hs.map House.id := by
  intro hs
  induction hs with
  | nil => intro aw; rfl
  | cons h hs ih =>
    intro aw
    rw [conductVickreyAuctionAux_cons, List.map_cons, List.map_cons,
      auctionSingleHouse_houseId, ih]

theorem winnersOf_cons_some {r : AuctionResult} {rs : List AuctionResult} {w : Nat}
    (hw : r.winner = some w) : winnersOf (r :: rs) = w :: winnersOf rs := by
  simp [winnersOf, List.filterMap_cons, hw]

theorem winnersOf_cons_none {r : AuctionResult} {rs : List AuctionResult}
    (hw : r.winner = none) : winnersOf (r :: rs) = winnersOf rs := by
  simp [winnersOf, List.filterMap_cons, hw]

theorem conductVickreyAuctionAux_winners (people : List Person) (houses : List House)
    (vi ut : ℚ) :
    ∀ (hs : List House) (aw : List Nat),
      (∀ w ∈ winnersOf (conductVickreyAuctionAux people houses vi ut aw hs), w ∉ aw) ∧
      (winnersOf (conductVickreyAuctionAux people houses vi ut aw hs)).Nodup := by
  intro hs
  induction hs with
  | nil =>
    intro aw
    exact ⟨by intro w hw; simp [winnersOf, conductVickreyAuctionAux] at hw,
      by simp [winnersOf, conductVickreyAuctionAux]⟩
  | cons h hs ih =>
    intro aw
    rw [conductVickreyAuctionAux_cons]
    cases hw : (auctionSingleHouse people houses h vi ut aw).winner with
    | none =>
      rw [winnersOf_cons_none hw]
      exact ih aw
    | some w₀ =>
      rw [winnersOf_cons_some hw]
      have hw₀aw : w₀ ∉ aw := by
        obtain ⟨p, _, hpid, hpc, _⟩ := auctionSingleHouse_winner_cases hw
        rw [← hpid]
        simpa using hpc
      obtain ⟨hrest_notin, hrest_nodup⟩ := ih (aw ++ [w₀])
      refine ⟨?_, ?_⟩
      · intro w hwmem
        rcases List.mem_cons.1 hwmem with hwe | hwr
        · rw [hwe]; exact hw₀aw
        · intro hcontra
          exact hrest_notin w hwr (List.mem_append_left _ hcontra)
      · rw [List.nodup_cons]
        refine ⟨?_, hrest_nodup⟩
        intro hcontra
        exact hrest_notin w₀ hcontra (List.mem_append_right _ (List.mem_singleton.2 rfl))

theorem resultBuys_map_houseId (rs : List AuctionResult) :
    (resultBuys rs).map (fun b => b.2.1) = soldIds rs := by
  induction rs with
  | nil => rfl
  | cons r rs ih =>
    cases hw : r.winner with
    | none =>
      have h1 : resultBuys (r :: rs) = resultBuys rs := by
        simp [resultBuys, List.filterMap_cons, hw]
      have h2 : soldIds (r :: rs) = soldIds rs := by
        simp [soldIds, List.filter_cons, hw]
      rw [h1, h2, ih]
    | some w =>
      have h1 : resultBuys (r :: rs) = (w, r.houseId, r.secondPrice) :: resultBuys rs := by
        simp [resultBuys, List.filterMap_cons, hw]
      have h2 : soldIds (r :: rs) = r.houseId :: soldIds rs := by
        simp [soldIds, List.filter_cons, hw]
      rw [h1, h2, List.map_cons, ih]

theorem soldIds_sublist (rs : List AuctionResult) :
    List.Sublist (soldIds rs) (rs.map (fun r => r.houseId)) := by
  unfold soldIds
  exact (List.filter_sublist rs).map (fun r => r.houseId)

theorem soldIds_append (a b : List AuctionResult) :
    soldIds (a ++ b) = soldIds a ++ soldIds b := by
  simp [soldIds, List.filter_append]

theorem mem_resultBuys {rs : List AuctionResult} {b : Nat × Nat × ℚ}
    (hb : b ∈ resultBuys rs) :
    ∃ r ∈ rs, r.winner = some b.1 ∧ r.houseId = b.2.1 := by
  obtain ⟨r, hr, hmap⟩ := List.mem_filterMap.1 hb
  cases hw : r.winner with
  | none => rw [hw] at hmap; cases hmap
  | some w =>
    rw [hw] at hmap
    simp only [Option.map_some', Option.some.injEq] at hmap
    refine ⟨r, hr, ?_, ?_⟩
    · rw [hw, ← hmap]
    · rw [← hmap]

theorem mem_lookupHouses {houses : List House} {ids : List Nat} {h₀ : House}
    (hm : h₀ ∈ lookupHouses houses ids) : h₀ ∈ houses ∧ h₀.id ∈ ids := by
  obtain ⟨hid, hmem, hfind⟩ := List.mem_filterMap.1 hm
  obtain ⟨hh, hid'⟩ := findHouse_eq_some hfind
  exact ⟨hh, hid' ▸ hmem⟩

theorem lookupHouses_map_id_sublist (houses : List House) (ids : List Nat) :
    List.Sublist ((lookupHouses houses ids).map House.id) ids := by
  induction ids with
  | nil => exact List.Sublist.refl _
  | cons hid ids ih =>
    simp only [lookupHouses, List.filterMap_cons]
    cases hfind : findHouse houses hid with
    | none => exact (ih).cons hid
    | some h₀ =>
      rw [List.map_cons]
      have := (findHouse_eq_some hfind).2
      rw [this]
      exact ih.cons₂ hid

theorem mem_conductVickreyAuctionAux {people : List Person} {houses : List House}
    {vi ut : ℚ} :
    ∀ {hs : List House} {aw : List Nat} {r : AuctionResult},
      r ∈ conductVickreyAuctionAux people houses vi ut aw hs →
      ∃ h ∈ hs, ∃ aw', r = auctionSingleHouse people houses h vi ut aw' := by
  intro hs
  induction hs with
  | nil => intro aw r hr; cases hr
  | cons h hs ih =>
    intro aw r hr
    rw [conductVickreyAuctionAux_cons] at hr
    rcases List.mem_cons.1 hr with hre | hrm
    · exact ⟨h, List.mem_cons_self _ _, aw, hre⟩
    · obtain ⟨h', hh', aw', hr'⟩ := ih hrm
      exact ⟨h', List.mem_cons_of_mem _ hh', aw', hr'⟩

theorem conductVickreyAuction_winner_id {people : List Person} {houses : List House}
    {batch : List House} {vi ut : ℚ} {r : AuctionResult} {w : Nat}
    (hr : r ∈ conductVickreyAuction people houses batch vi ut)
    (hw : r.winner = some w) : w ∈ people.map Person.id := by
  obtain ⟨h, _, aw', hre⟩ := mem_conductVickreyAuctionAux hr
  rw [hre] at hw
  obtain ⟨p, hpmem, hpid, _, _⟩ := auctionSingleHouse_winner_cases hw
  exact List.mem_map.2 ⟨p, hpmem, hpid⟩

theorem batchStep_invP {cfg : Cfg} {hpb : Nat} {s : MarketState} (hs : InvP s) :
    InvP (batchStep cfg hpb s) := by
  obtain ⟨hcore, havail, hand, hbound⟩ := hs
  have hidsP := execBuys_map_ids (resultBuys (batchResults cfg hpb s)) s.people s.houses
  have hbatchIds : (batchResults cfg hpb s).map (fun r => r.houseId)
      = (lookupHouses s.houses (s.availableHouses.take hpb)).map House.id :=
    conductVickreyAuctionAux_map_houseId _ _ _ _ _ _
  have hsoldsub : List.Sublist (soldIds (batchResults cfg hpb s))
      (s.availableHouses.take hpb) := by
    refine List.Sublist.trans (soldIds_sublist _) ?_
    rw [hbatchIds]
    exact lookupHouses_map_id_sublist _ _
  have hbuys : ∀ b ∈ resultBuys (batchResults cfg hpb s),
      b.1 ∈ s.people.map Person.id ∧ b.2.1 ∈ s.houses.map House.id ∧
      ownerNoneAt s.houses b.2.1 := by
    intro b hb
    obtain ⟨r, hr, hwin, hhid⟩ := mem_resultBuys hb
    have hb1 : b.1 ∈ s.people.map Person.id := conductVickreyAuction_winner_id hr hwin
    have hbmem : b.2.1 ∈ s.availableHouses := by
      have h1 : b.2.1 ∈ (batchResults cfg hpb s).map (fun r => r.houseId) :=
        List.mem_map.2 ⟨r, hr, hhid⟩
      rw [hbatchIds] at h1
      exact (List.take_sublist _ _).subset
        ((lookupHouses_map_id_sublist s.houses (s.availableHouses.take hpb)).subset h1)
    obtain ⟨hmem, hnone⟩ := havail b.2.1 hbmem
    exact ⟨hb1, hmem, hnone⟩
  have hndbuys : ((resultBuys (batchResults cfg hpb s)).map (fun b => b.2.1)).Nodup := by
    rw [resultBuys_map_houseId]
    exact (List.Sublist.trans hsoldsub (List.take_sublist _ _)).nodup hand
  have hexec := execBuys_invCore hcore hbuys hndbuys
  refine ⟨hexec.1, ?_, ?_, ?_⟩
  · intro hid hmem
    have hmem' : hid ∈ s.availableHouses ∧ hid ∉ soldIds (batchResults cfg hpb s) := by
      simpa [batchStep, List.mem_filter] using hmem
    obtain ⟨hin, hnone⟩ := havail hid hmem'.1
    constructor
    · show hid ∈ ((execBuys (resultBuys (batchResults cfg hpb s)) s.people s.houses).2).map
        House.id
      rw [(execBuys_map_ids _ _ _).2]
      exact hin
    · show ownerNoneAt (execBuys (resultBuys (batchResults cfg hpb s)) s.people s.houses).2
        hid
      refine hexec.2 hid ?_ hnone
      rw [resultBuys_map_houseId]
      exact hmem'.2
  · exact (List.filter_sublist _).nodup hand
  · intro p hp
    have hpm : p.id ∈ s.people.map Person.id := by
      have h3 : p.id ∈ ((execBuys (resultBuys (batchResults cfg hpb s)) s.people s.houses).1).map
          Person.id := List.mem_map.2 ⟨p, hp, rfl⟩
      rw [(execBuys_map_ids _ _ _).1] at h3
      exact h3
    obtain ⟨q, hq, hqid⟩ := List.mem_map.1 hpm
    show p.id < s.nextPersonId
    rw [← hqid]
    exact hbound q hq

theorem runBatches_invP (cfg : Cfg) (hpb : Nat) :
    ∀ (fuel : Nat) (s : MarketState), InvP s → InvP (runBatches cfg hpb fuel s).1 := by
  intro fuel
  induction fuel with
  | zero => intro s hs; exact hs
  | succ fuel ih =>
    intro s hs
    by_cases h1 : s.availableHouses.isEmpty
    · simp only [runBatches, h1, if_true]
      exact hs
    · by_cases h2 : (lookupHouses s.houses (s.availableHouses.take hpb)).isEmpty
      · simp only [runBatches, h1, h2, Bool.false_eq_true, if_false, if_true]
        exact hs
      · have hgo : runBatches cfg hpb (fuel + 1) s
            = ((runBatches cfg hpb fuel (batchStep cfg hpb s)).1,
               batchResults cfg hpb s :: (runBatches cfg hpb fuel (batchStep cfg hpb s)).2) := by
          simp only [runBatches, Bool.not_eq_true] at *
          rw [if_neg (by rw [h1]; exact Bool.false_ne_true),
            if_neg (by rw [h2]; exact Bool.false_ne_true)]
        rw [hgo]
        exact ih _ (batchStep_invP hs)

theorem conductAuctions_invP {cfg : Cfg} {s : MarketState} (hs : InvP s) :
    InvP (conductAuctions cfg s) := by
  unfold conductAuctions
  split
  · exact hs
  · have := runBatches_invP cfg
      (housesPerBatchOf s.availableHouses.length cfg.n_auction_steps)
      cfg.n_auction_steps s hs
    exact ⟨this.1, this.2.1, this.2.2.1, this.2.2.2⟩

theorem invP_mapHouses {s : MarketState} {f : House → House}
    (hfid : ∀ h, (f h).id = h.id) (hfown : ∀ h, (f h).owner = h.owner)
    (hs : InvP s) : InvP { s with houses := s.houses.map f } := by
  obtain ⟨⟨ndP, ndH, ownL, houseL⟩, havail, hand, hbound⟩ := hs
  have hmapids : (s.houses.map f).map House.id = s.houses.map House.id := by
    rw [List.map_map]
    exact List.map_congr_left (fun h _ => hfid h)
  refine ⟨⟨ndP, ?_, ?_, ?_⟩, ?_, hand, hbound⟩
  · rw [hmapids]; exact ndH
  · intro h' hh' pid hpid
    obtain ⟨h₀, hh₀, himg⟩ := List.mem_map.1 hh'
    subst himg
    rw [hfown] at hpid
    obtain ⟨p₀, hp₀, hp₀id, hp₀h⟩ := ownL h₀ hh₀ pid hpid
    exact ⟨p₀, hp₀, hp₀id, by rw [hfid]; exact hp₀h⟩
  · intro p hp hid hhid
    obtain ⟨h₀, hh₀, hh₀id, hh₀own⟩ := houseL p hp hid hhid
    exact ⟨f h₀, List.mem_map.2 ⟨h₀, hh₀, rfl⟩, by rw [hfid]; exact hh₀id,
      by rw [hfown]; exact hh₀own⟩
  · intro hid hmem
    obtain ⟨hin, hnone⟩ := havail hid hmem
    refine ⟨by rw [hmapids]; exact hin, ?_⟩
    intro h' hh' heq
    obtain ⟨h₀, hh₀, himg⟩ := List.mem_map.1 hh'
    subst himg
    rw [hfown]
    exact hnone h₀ hh₀ (by rw [← hfid h₀]; exact heq)

theorem marketApplyVacantDeprec_invP {rate : ℚ} {s : MarketState} (hs : InvP s) :
    InvP (marketApplyVacantDeprec rate s) := by
  unfold marketApplyVacantDeprec
  split
  · exact hs
  · refine invP_mapHouses ?_ ?_ hs
    · intro h
      unfold House.applyVacantDeprec
      split <;> rfl
    · intro h
      unfold House.applyVacantDeprec
      split <;> rfl

theorem processEntries_invP {cfg : Cfg} {wf : Nat → ℚ} {s : MarketState}
    (hs : InvP s) : InvP (processEntries cfg wf s) := by
  obtain ⟨⟨ndP, ndH, ownL, houseL⟩, havail, hand, hbound⟩ := hs
  unfold processEntries
  split
  · exact ⟨⟨ndP, ndH, ownL, houseL⟩, havail, hand, hbound⟩
  · refine ⟨⟨?_, ndH, ?_, ?_⟩, havail, hand, ?_⟩
    · rw [List.map_append, List.map_map]
      rw [List.nodup_append]
      refine ⟨ndP, ?_, ?_⟩
      · have : ((List.range cfg.turnover_in).map
            ((fun p => p.id) ∘ fun i => Person.mk (s.nextPersonId + i) (wf i) none
              s.currentYear)) = (List.range cfg.turnover_in).map
            (fun i => s.nextPersonId + i) := rfl
        rw [this]
        exact List.Nodup.map (fun a b hab => Nat.add_left_cancel hab) (List.nodup_range _)
      · intro a ha hb
        obtain ⟨q, hq, hqid⟩ := List.mem_map.1 ha
        obtain ⟨i, hi, hiid⟩ := List.mem_map.1 hb
        have hia : a < s.nextPersonId := hqid ▸ hbound q hq
        have hib : s.nextPersonId ≤ a := by
          rw [← hiid]
          exact Nat.le_add_right _ _
        omega
    · intro h hh pid hpid
      obtain ⟨p₀, hp₀, hp₀id, hp₀h⟩ := ownL h hh pid hpid
      exact ⟨p₀, List.mem_append_left _ hp₀, hp₀id, hp₀h⟩
    · intro p hp hid hhid
      rcases List.mem_append.1 hp with hpo | hpn
      · exact houseL p hpo hid hhid
      · obtain ⟨i, hi, hiimg⟩ := List.mem_map.1 hpn
        rw [← hiimg] at hhid
        simp at hhid
    · intro p hp
      rcases List.mem_append.1 hp with hpo | hpn
      · calc p.id < s.nextPersonId := hbound p hpo
          _ ≤ s.nextPersonId + cfg.turnover_in := Nat.le_add_right _ _
      · obtain ⟨i, hi, hiimg⟩ := List.mem_map.1 hpn
        have : p.id = s.nextPersonId + i := by rw [← hiimg]
        rw [this]
        exact Nat.add_lt_add_left (List.mem_range.1 hi) _

theorem findPerson_eq_none_forall {people : List Person} {pid : Nat}
    (h : findPerson people pid = none) : ∀ p ∈ people, p.id ≠ pid := by
  intro p hp
  unfold findPerson at h
  rw [List.find?_eq_none] at h
  have := h p hp
  simpa using this

theorem exitOne_eq_of_none {st : List Person × List House × List Nat} {pid : Nat}
    (hf : findPerson st.1 pid = none) : exitOne st pid = st := by
  simp only [exitOne, hf]

theorem exitOne_eq_of_nohouse {st : List Person × List House × List Nat} {pid : Nat}
    {p : Person} (hf : findPerson st.1 pid = some p) (hph : p.house = none) :
    exitOne st pid = st := by
  simp only [exitOne, hf, hph]

theorem exitOne_eq_of_house {st : List Person × List House × List Nat} {pid : Nat}
    {p : Person} {hid : Nat} (hf : findPerson st.1 pid = some p)
    (hph : p.house = some hid) :
    exitOne st pid = ((sellHouseUpd st.1 st.2.1 pid).1,
      (sellHouseUpd st.1 st.2.1 pid).2, st.2.2 ++ [hid]) := by
  simp only [exitOne, hf, hph]

theorem exitOne_map_ids (st : List Person × List House × List Nat) (pid : Nat) :
    (exitOne st pid).1.map Person.id = st.1.map Person.id ∧
    (exitOne st pid).2.1.map House.id = st.2.1.map House.id := by
  cases hf : findPerson st.1 pid with
  | none => rw [exitOne_eq_of_none hf]; exact ⟨rfl, rfl⟩
  | some p =>
    cases hph : p.house with
    | none => rw [exitOne_eq_of_nohouse hf hph]; exact ⟨rfl, rfl⟩
    | some hid =>
      rw [exitOne_eq_of_house hf hph]
      exact sellHouseUpd_map_ids st.1 st.2.1 pid

theorem ownerNoneAt_updHouse_self {houses : List House} {hid : Nat}
    {g : House → House} (hgown : ∀ h, (g h).owner = none)
    (hgid : ∀ h, (g h).id = h.id) :
    ownerNoneAt (updHouse houses hid g) hid := by
  intro h' hh' heq
  simp only [updHouse, List.mem_map] at hh'
  obtain ⟨h₀, hh₀, himg⟩ := hh'
  by_cases hc : h₀.id = hid
  · rw [if_pos hc] at himg
    rw [← himg]
    exact hgown h₀
  · rw [if_neg hc] at himg
    subst himg
    exact absurd heq hc

theorem exitOne_inv {st : List Person × List House × List Nat} {pid : Nat}
    (h1 : InvCore st.1 st.2.1)
    (h2 : ∀ hid ∈ st.2.2, hid ∈ st.2.1.map House.id ∧ ownerNoneAt st.2.1 hid)
    (h3 : st.2.2.Nodup) :
    InvCore (exitOne st pid).1 (exitOne st pid).2.1 ∧
    (∀ hid ∈ (exitOne st pid).2.2, hid ∈ (exitOne st pid).2.1.map House.id ∧
      ownerNoneAt (exitOne st pid).2.1 hid) ∧
    (exitOne st pid).2.2.Nodup := by
  cases hf : findPerson st.1 pid with
  | none => rw [exitOne_eq_of_none hf]; exact ⟨h1, h2, h3⟩
  | some p =>
    cases hph : p.house with
    | none => rw [exitOne_eq_of_nohouse hf hph]; exact ⟨h1, h2, h3⟩
    | some hid =>
      rw [exitOne_eq_of_house hf hph]
      obtain ⟨hpmem, hpid⟩ := findPerson_eq_some hf
      obtain ⟨h₀, hh₀mem, hh₀id, hh₀own⟩ := h1.2.2.2 p hpmem hid (by rw [hph]; simp)
      have hsellids := sellHouseUpd_map_ids st.1 st.2.1 pid
      have hsell_eq := @sellHouseUpd_eq_of_house _ st.2.1 _ _ _ hf hph
      have hnotin : hid ∉ st.2.2 := by
        intro hcontra
        have := (h2 hid hcontra).2 h₀ hh₀mem hh₀id
        rw [this] at hh₀own
        cases hh₀own
      refine ⟨sellHouseUpd_invCore h1, ?_, ?_⟩
      · intro hid' hmem
        rcases List.mem_append.1 hmem with hold | hnew
        · obtain ⟨hin, hnone⟩ := h2 hid' hold
          exact ⟨by rw [hsellids.2]; exact hin, ownerNoneAt_sellHouseUpd hnone⟩
        · have heq : hid' = hid := List.mem_singleton.1 hnew
          subst heq
          refine ⟨by rw [hsellids.2]; exact List.mem_map.2 ⟨h₀, hh₀mem, hh₀id⟩, ?_⟩
          rw [hsell_eq]
          exact ownerNoneAt_updHouse_self (fun h => rfl) (fun h => rfl)
      · rw [List.nodup_append]
        exact ⟨h3, List.nodup_singleton _, fun a ha hb =>
          hnotin ((List.mem_singleton.1 hb) ▸ ha)⟩

theorem foldExits_inv (E : List Nat) :
    ∀ (st : List Person × List House × List Nat),
      InvCore st.1 st.2.1 →
      (∀ hid ∈ st.2.2, hid ∈ st.2.1.map House.id ∧ ownerNoneAt st.2.1 hid) →
      st.2.2.Nodup →
      InvCore (E.foldl exitOne st).1 (E.foldl exitOne st).2.1 ∧
      (∀ hid ∈ (E.foldl exitOne st).2.2,
        hid ∈ (E.foldl exitOne st).2.1.map House.id ∧
        ownerNoneAt (E.foldl exitOne st).2.1 hid) ∧
      (E.foldl exitOne st).2.2.Nodup ∧
      (E.foldl exitOne st).1.map Person.id = st.1.map Person.id ∧
      (E.foldl exitOne st).2.1.map House.id = st.2.1.map House.id := by
  induction E with
  | nil => intro st h1 h2 h3; exact ⟨h1, h2, h3, rfl, rfl⟩
  | cons pid E ih =>
    intro st h1 h2 h3
    rw [List.foldl_cons]
    obtain ⟨g1, g2, g3⟩ := @exitOne_inv _ pid h1 h2 h3
    obtain ⟨f1, f2, f3, f4, f5⟩ := ih (exitOne st pid) g1 g2 g3
    have hids := exitOne_map_ids st pid
    exact ⟨f1, f2, f3, f4.trans hids.1, f5.trans hids.2⟩

theorem exitOne_houseless {st : List Person × List House × List Nat} {pid : Nat}
    (nd : (st.1.map Person.id).Nodup) :
    ∀ p' ∈ (exitOne st pid).1, p'.id = pid → p'.house = none := by
  cases hf : findPerson st.1 pid with
  | none =>
    rw [exitOne_eq_of_none hf]
    intro p' hp' heq
    exact absurd heq (findPerson_eq_none_forall hf p' hp')
  | some p =>
    obtain ⟨hpmem, hpid⟩ := findPerson_eq_some hf
    cases hph : p.house with
    | none =>
      rw [exitOne_eq_of_nohouse hf hph]
      intro p' hp' heq
      have : p' = p := mem_nodup_id_unique nd hp' hpmem (heq.trans hpid.symm)
      rw [this]
      exact hph
    | some hid =>
      rw [exitOne_eq_of_house hf hph, sellHouseUpd_eq_of_house hf hph]
      intro p' hp' heq
      simp only [updPerson, List.mem_map] at hp'
      obtain ⟨q, hq, himg⟩ := hp'
      by_cases hc : q.id = pid
      · rw [if_pos hc] at himg
        rw [← himg]
      · rw [if_neg hc] at himg
        subst himg
        exact absurd heq hc

theorem exitOne_houseless_stable {st : List Person × List House × List Nat}
    {pid' pid : Nat}
    (h0 : ∀ p' ∈ st.1, p'.id = pid → p'.house = none) :
    ∀ p' ∈ (exitOne st pid').1, p'.id = pid → p'.house = none := by
  cases hf : findPerson st.1 pid' with
  | none => rw [exitOne_eq_of_none hf]; exact h0
  | some p =>
    cases hph : p.house with
    | none => rw [exitOne_eq_of_nohouse hf hph]; exact h0
    | some hid =>
      rw [exitOne_eq_of_house hf hph, sellHouseUpd_eq_of_house hf hph]
      intro p' hp' heq
      simp only [updPerson, List.mem_map] at hp'
      obtain ⟨q, hq, himg⟩ := hp'
      by_cases hc : q.id = pid'
      · rw [if_pos hc] at himg
        rw [← himg]
      · rw [if_neg hc] at himg
        subst himg
        exact h0 q hq heq

theorem foldExits_houseless_stable (E : List Nat) :
    ∀ (st : List Person × List House × List Nat) (pid : Nat),
      (∀ p' ∈ st.1, p'.id = pid → p'.house = none) →
      ∀ p' ∈ (E.foldl exitOne st).1, p'.id = pid → p'.house = none := by
  induction E with
  | nil => intro st pid h0; exact h0
  | cons pid' E ih =>
    intro st pid h0
    rw [List.foldl_cons]
    exact ih (exitOne st pid') pid (exitOne_houseless_stable h0)

theorem foldExits_houseless (E : List Nat) :
    ∀ (st : List Person × List House × List Nat),
      (st.1.map Person.id).Nodup →
      ∀ pid ∈ E, ∀ p' ∈ (E.foldl exitOne st).1, p'.id = pid → p'.house = none := by
  induction E with
  | nil => intro st _ pid hpid; cases hpid
  | cons pid₀ E ih =>
    intro st nd pid hpid
    rw [List.foldl_cons]
    rcases List.mem_cons.1 hpid with heq | hmem
    · subst heq
      exact foldExits_houseless_stable E (exitOne st pid) pid (exitOne_houseless nd)
    · have nd' : ((exitOne st pid₀).1.map Person.id).Nodup := by
        rw [(exitOne_map_ids st pid₀).1]
        exact nd
      exact ih (exitOne st pid₀) nd' pid hmem

theorem processExits_eq_of_zero {cfg : Cfg} {shuffle : List Person → List Person}
    {s : MarketState} (h0 : cfg.turnover_out = 0) :
    processExits cfg shuffle s = s := by
  simp only [processExits, h0, if_true]

theorem processExits_eq_of_empty {cfg : Cfg} {shuffle : List Person → List Person}
    {s : MarketState} (h0 : cfg.turnover_out ≠ 0)
    (h1 : (exitingPeople cfg shuffle s).isEmpty = true) :
    processExits cfg shuffle s = s := by
  simp only [processExits, if_neg h0, h1, if_true]

theorem processExits_eq_of_go {cfg : Cfg} {shuffle : List Person → List Person}
    {s : MarketState} (h0 : cfg.turnover_out ≠ 0)
    (h1 : (exitingPeople cfg shuffle s).isEmpty = false) :
    processExits cfg shuffle s =
      { s with
        people := ((((exitingPeople cfg shuffle s).map Person.id).foldl exitOne
          (s.people, s.houses, s.availableHouses)).1).filter
            (fun p => !(((exitingPeople cfg shuffle s).map Person.id).contains p.id)),
        houses := (((exitingPeople cfg shuffle s).map Person.id).foldl exitOne
          (s.people, s.houses, s.availableHouses)).2.1,
        availableHouses := (((exitingPeople cfg shuffle s).map Person.id).foldl exitOne
          (s.people, s.houses, s.availableHouses)).2.2 } := by
  simp only [processExits, if_neg h0, h1, Bool.false_eq_true, if_false]

theorem processExits_invP {cfg : Cfg} {shuffle : List Person → List Person}
    {s : MarketState} (hs : InvP s) : InvP (processExits cfg shuffle s) := by
  obtain ⟨hcore, havail, hand, hbound⟩ := hs
  by_cases h0 : cfg.turnover_out = 0
  · rw [processExits_eq_of_zero h0]
    exact ⟨hcore, havail, hand, hbound⟩
  · cases h1 : (exitingPeople cfg shuffle s).isEmpty with
    | true =>
      rw [processExits_eq_of_empty h0 h1]
      exact ⟨hcore, havail, hand, hbound⟩
    | false =>
      rw [processExits_eq_of_go h0 h1]
      obtain ⟨f1, f2, f3, f4, f5⟩ := foldExits_inv
        ((exitingPeople cfg shuffle s).map Person.id)
        (s.people, s.houses, s.availableHouses) hcore havail hand
      have hexited := foldExits_houseless ((exitingPeople cfg shuffle s).map Person.id)
        (s.people, s.houses, s.availableHouses) hcore.1
      refine ⟨⟨?_, f1.2.1, ?_, ?_⟩, f2, f3, ?_⟩
      · have := (List.filter_sublist (l :=
          (((exitingPeople cfg shuffle s).map Person.id).foldl exitOne
            (s.people, s.houses, s.availableHouses)).1)
          (p := fun p => !(((exitingPeople cfg shuffle s).map Person.id).contains p.id))).map
          Person.id
        exact this.nodup (f4 ▸ hcore.1)
      · intro h hh pid hpid
        obtain ⟨p₀, hp₀, hp₀id, hp₀h⟩ := f1.2.2.1 h hh pid hpid
        refine ⟨p₀, ?_, hp₀id, hp₀h⟩
        rw [List.mem_filter]
        refine ⟨hp₀, ?_⟩
        have hnotex : p₀.id ∉ (exitingPeople cfg shuffle s).map Person.id := by
          intro hcontra
          have := hexited p₀.id hcontra p₀ hp₀ rfl
          rw [this] at hp₀h
          cases hp₀h
        simpa [List.elem_iff] using hnotex
      · intro p hp hid hhid
        exact f1.2.2.2 p (List.mem_of_mem_filter hp) hid hhid
      · intro p hp
        have hpm : p.id ∈ s.people.map Person.id := by
          have : p.id ∈ ((((exitingPeople cfg shuffle s).map Person.id).foldl exitOne
              (s.people, s.houses, s.availableHouses)).1).map Person.id :=
            List.mem_map.2 ⟨p, List.mem_of_mem_filter hp, rfl⟩
          rw [f4] at this
          exact this
        obtain ⟨q, hq, hqid⟩ := List.mem_map.1 hpm
        show p.id < s.nextPersonId
        rw [← hqid]
        exact hbound q hq

theorem tick_invP {cfg : Cfg} {shuffle : List Person → List Person}
    {wf : Nat → ℚ} {s : MarketState} (hs : InvP s) :
    InvP (tick cfg shuffle wf s) :=
  conductAuctions_invP (processEntries_invP (processExits_invP
    (marketApplyVacantDeprec_invP
      (invP_mapHouses (fun _ => rfl) (fun _ => rfl) hs))))

theorem zip_map_fst_sublist {α β : Type} (A : List α) (B : List β) :
    List.Sublist ((A.zip B).map Prod.fst) A := by
  induction A generalizing B with
  | nil => simp
  | cons a A ih =>
    cases B with
    | nil => simp
    | cons b B =>
      rw [List.zip_cons_cons, List.map_cons]
      exact (ih B).cons₂ a

theorem initRaw_people_ids (houseVals wealths : List ℚ) (startYear : Int) :
    (initRaw houseVals wealths startYear).people.map Person.id
      = (List.range wealths.length).map (fun i => i + 1) := by
  show ((wealths.enum.map (fun iw => Person.mk (iw.1 + 1) iw.2 none startYear)).map
    Person.id) = _
  rw [List.map_map]
  have h1 : (Person.id ∘ fun iw : Nat × ℚ => Person.mk (iw.1 + 1) iw.2 none startYear)
      = (fun i => i + 1) ∘ Prod.fst := rfl
  rw [h1, ← List.map_map, List.enum_map_fst]

theorem initRaw_houses_ids (houseVals wealths : List ℚ) (startYear : Int) :
    (initRaw houseVals wealths startYear).houses.map House.id
      = (List.range houseVals.length).map (fun i => i + 1) := by
  show ((houseVals.enum.map (fun iv => House.mk (iv.1 + 1) iv.2 iv.2 none 0)).map
    House.id) = _
  rw [List.map_map]
  have h1 : (House.id ∘ fun iv : Nat × ℚ => House.mk (iv.1 + 1) iv.2 iv.2 none 0)
      = (fun i => i + 1) ∘ Prod.fst := rfl
  rw [h1, ← List.map_map, List.enum_map_fst]

theorem initRaw_houses_ownerNone {houseVals wealths : List ℚ} {startYear : Int} :
    ∀ h ∈ (initRaw houseVals wealths startYear).houses, h.owner = none := by
  intro h hh
  obtain ⟨iv, _, himg⟩ := List.mem_map.1 hh
  rw [← himg]

theorem initRaw_people_houseNone {houseVals wealths : List ℚ} {startYear : Int} :
    ∀ p ∈ (initRaw houseVals wealths startYear).people, p.house = none := by
  intro p hp
  obtain ⟨iw, _, himg⟩ := List.mem_map.1 hp
  rw [← himg]

theorem initRaw_invP (houseVals wealths : List ℚ) (startYear : Int) :
    InvP (initRaw houseVals wealths startYear) := by
  have hpids := initRaw_people_ids houseVals wealths startYear
  have hhids := initRaw_houses_ids houseVals wealths startYear
  have hndp : ((initRaw houseVals wealths startYear).people.map Person.id).Nodup := by
    rw [hpids]
    exact List.Nodup.map (fun a b hab => Nat.add_right_cancel hab) (List.nodup_range _)
  have hndh : ((initRaw houseVals wealths startYear).houses.map House.id).Nodup := by
    rw [hhids]
    exact List.Nodup.map (fun a b hab => Nat.add_right_cancel hab) (List.nodup_range _)
  refine ⟨⟨hndp, hndh, ?_, ?_⟩, ?_, ?_, ?_⟩
  · intro h hh pid hpid
    rw [initRaw_houses_ownerNone h hh] at hpid
    cases hpid
  · intro p hp hid hhid
    rw [initRaw_people_houseNone p hp] at hhid
    cases hhid
  · intro hid hmem
    refine ⟨hmem, ?_⟩
    intro h hh _
    exact initRaw_houses_ownerNone h hh
  · show ((initRaw houseVals wealths startYear).houses.map House.id).Nodup
    exact hndh
  · intro p hp
    have : p.id ∈ (initRaw houseVals wealths startYear).people.map Person.id :=
      List.mem_map.2 ⟨p, hp, rfl⟩
    rw [hpids] at this
    obtain ⟨i, hi, hiimg⟩ := List.mem_map.1 this
    show p.id < wealths.length + 1
    rw [← hiimg]
    exact Nat.add_lt_add_right (List.mem_range.1 hi) 1

theorem initMarket_invP (houseVals wealths : List ℚ) (startYear : Int) :
    InvP (initMarket houseVals wealths startYear) := by
  obtain ⟨⟨ndP, ndH, ownL, houseL⟩, havail, hand, hbound⟩ :=
    initRaw_invP houseVals wealths startYear
  have hallnone : ∀ hid, ownerNoneAt (initRaw houseVals wealths startYear).houses hid :=
    fun hid h hh _ => initRaw_houses_ownerNone h hh
  have hbuys : ∀ b ∈ (initPairs (initRaw houseVals wealths startYear)).map
      (fun hp => (hp.2.id, hp.1.id, hp.1.calculateValueDefault)),
      b.1 ∈ (initRaw houseVals wealths startYear).people.map Person.id ∧
      b.2.1 ∈ (initRaw houseVals wealths startYear).houses.map House.id ∧
      ownerNoneAt (initRaw houseVals wealths startYear).houses b.2.1 := by
    intro b hb
    obtain ⟨hp, hpmem, himg⟩ := List.mem_map.1 hb
    obtain ⟨hhm, hpm⟩ := List.mem_zip (by
      show (hp.1, hp.2) ∈ _
      exact hpmem)
    have hhm' : hp.1 ∈ (initRaw houseVals wealths startYear).houses :=
      ((List.mergeSort_perm _ _).mem_iff.1 ((List.take_sublist _ _).subset hhm))
    have hpm' : hp.2 ∈ (initRaw houseVals wealths startYear).people :=
      (List.mergeSort_perm _ _).mem_iff.1 hpm
    refine ⟨?_, ?_, hallnone _⟩
    · rw [← himg]
      exact List.mem_map.2 ⟨hp.2, hpm', rfl⟩
    · rw [← himg]
      exact List.mem_map.2 ⟨hp.1, hhm', rfl⟩
  have hnd : (((initPairs (initRaw houseVals wealths startYear)).map
      (fun hp => (hp.2.id, hp.1.id, hp.1.calculateValueDefault))).map
      (fun b => b.2.1)).Nodup := by
    rw [List.map_map]
    have heq : ((fun b : Nat × Nat × ℚ => b.2.1) ∘
        (fun hp : House × Person => (hp.2.id, hp.1.id, hp.1.calculateValueDefault)))
        = House.id ∘ Prod.fst := rfl
    rw [heq, ← List.map_map]
    refine List.Nodup.sublist ((zip_map_fst_sublist _ _).map House.id) ?_
    refine List.Nodup.sublist ((List.take_sublist _ _).map House.id) ?_
    have : ((initRaw houseVals wealths startYear).houses.mergeSort
        (fun a b => decide (a.calculateValueDefault ≤ b.calculateValueDefault))).map
        House.id |>.Perm ((initRaw houseVals wealths startYear).houses.map House.id) :=
      (List.mergeSort_perm _ _).map House.id
    exact this.nodup_iff.2 ndH
  have hexec := execBuys_invCore ⟨ndP, ndH, ownL, houseL⟩ hbuys hnd
  refine ⟨hexec.1, ?_, ?_, ?_⟩
  · intro hid hmem
    have hmemf : hid ∈ (initRaw houseVals wealths startYear).availableHouses.filter
        (fun hid => !(((initPairs (initRaw houseVals wealths startYear)).map
          (fun hp => hp.1.id)).contains hid)) := hmem
    obtain ⟨hmem1, hpred⟩ := List.mem_filter.1 hmemf
    have hnotocc : hid ∉ (initPairs (initRaw houseVals wealths startYear)).map
        (fun hp => hp.1.id) := by
      simpa [List.elem_iff] using hpred
    have hids := execBuys_map_ids ((initPairs (initRaw houseVals wealths startYear)).map
      (fun hp => (hp.2.id, hp.1.id, hp.1.calculateValueDefault)))
      (initRaw houseVals wealths startYear).people
      (initRaw houseVals wealths startYear).houses
    obtain ⟨hin, _⟩ := havail hid hmem1
    constructor
    · show hid ∈ ((execBuys ((initPairs (initRaw houseVals wealths startYear)).map
        (fun hp => (hp.2.id, hp.1.id, hp.1.calculateValueDefault)))
        (initRaw houseVals wealths startYear).people
        (initRaw houseVals wealths startYear).houses).2).map House.id
      rw [hids.2]
      exact hin
    · show ownerNoneAt (execBuys ((initPairs (initRaw houseVals wealths startYear)).map
        (fun hp => (hp.2.id, hp.1.id, hp.1.calculateValueDefault)))
        (initRaw houseVals wealths startYear).people
        (initRaw houseVals wealths startYear).houses).2 hid
      refine hexec.2 hid ?_ (hallnone hid)
      rw [List.map_map]
      intro hcontra
      exact hnotocc (by
        obtain ⟨hp, hpm, himg⟩ := List.mem_map.1 hcontra
        exact List.mem_map.2 ⟨hp, hpm, himg⟩)
  · show ((initRaw houseVals wealths startYear).availableHouses.filter _).Nodup
    exact (List.filter_sublist _).nodup hand
  · intro p hp
    have hids := execBuys_map_ids ((initPairs (initRaw houseVals wealths startYear)).map
      (fun hp => (hp.2.id, hp.1.id, hp.1.calculateValueDefault)))
      (initRaw houseVals wealths startYear).people
      (initRaw houseVals wealths startYear).houses
    have hpm : p.id ∈ (initRaw houseVals wealths startYear).people.map Person.id := by
      have h3 : p.id ∈ ((execBuys _ _ _).1).map Person.id :=
        List.mem_map.2 ⟨p, hp, rfl⟩
      rw [hids.1] at h3
      exact h3
    obtain ⟨q, hq, hqid⟩ := List.mem_map.1 hpm
    show p.id < (initRaw houseVals wealths startYear).nextPersonId
    rw [← hqid]
    exact hbound q hq

theorem foldExits_map_ids_only (E : List Nat) :
    ∀ (st : List Person × List House × List Nat),
      (E.foldl exitOne st).1.map Person.id = st.1.map Person.id := by
  induction E with
  | nil => intro st; rfl
  | cons pid E ih =>
    intro st
    rw [List.foldl_cons]
    exact (ih (exitOne st pid)).trans (exitOne_map_ids st pid).1

theorem exitingPeople_length {cfg : Cfg} {shuffle : List Person → List Person}
    {s : MarketState} (hperm : (shuffle s.people).Perm s.people)
    (h0 : cfg.turnover_out ≠ 0) :
    (exitingPeople cfg shuffle s).length = min cfg.turnover_out s.people.length := by
  unfold exitingPeople selectRandomElements
  rw [if_neg h0]
  split
  · rename_i hle
    exact (Nat.min_eq_right hle).symm
  · rw [List.length_take, hperm.length_eq]

theorem processExits_people_length {cfg : Cfg} {shuffle : List Person → List Person}
    {s : MarketState} (hperm : (shuffle s.people).Perm s.people)
    (nd : (s.people.map Person.id).Nodup) :
    (processExits cfg shuffle s).people.length
      = s.people.length - min cfg.turnover_out s.people.length := by
  by_cases h0 : cfg.turnover_out = 0
  · rw [processExits_eq_of_zero h0, h0]
    simp
  · cases h1 : (exitingPeople cfg shuffle s).isEmpty with
    | true =>
      rw [processExits_eq_of_empty h0 h1]
      have hlen : (exitingPeople cfg shuffle s).length = 0 := by
        rw [List.isEmpty_iff] at h1
        rw [h1]
        rfl
      rw [exitingPeople_length hperm h0] at hlen
      omega
    | false =>
      rw [processExits_eq_of_go h0 h1]
      show (List.filter _ _).length = _
      rw [← List.countP_eq_length_filter]
      have hcomp : (fun p : Person =>
          !(((exitingPeople cfg shuffle s).map Person.id).contains p.id))
          = (fun i : Nat => !(((exitingPeople cfg shuffle s).map Person.id).contains i))
            ∘ Person.id := rfl
      rw [hcomp, ← List.countP_map, foldExits_map_ids_only]
      unfold exitingPeople selectRandomElements
      rw [if_neg h0]
      unfold exitingPeople selectRandomElements at h1
      rw [if_neg h0] at h1
      split
      · rename_i hle
        rw [Nat.min_eq_right hle, Nat.sub_self]
        rw [List.countP_eq_zero]
        intro a ha
        simp only [Bool.not_eq_true', Bool.not_eq_false]
        exact (List.elem_iff).2 ha
      · rename_i hgt
        push_neg at hgt
        rw [Nat.min_eq_left (Nat.le_of_lt hgt)]
        rw [List.map_take]
        have hSIperm : ((shuffle s.people).map Person.id).Perm
            (s.people.map Person.id) := hperm.map Person.id
        rw [hSIperm.symm.countP_eq]
        have hsplit := List.take_append_drop cfg.turnover_out
          ((shuffle s.people).map Person.id)
        nth_rewrite 2 [← hsplit]
        rw [List.countP_append]
        have hndSI : (((shuffle s.people).map Person.id)).Nodup :=
          hSIperm.nodup_iff.2 nd
        rw [← hsplit, List.nodup_append] at hndSI
        have hc1 : List.countP
            (fun i => !((((shuffle s.people).map Person.id).take
              cfg.turnover_out).contains i))
            (((shuffle s.people).map Person.id).take cfg.turnover_out) = 0 := by
          rw [List.countP_eq_zero]
          intro a ha
          simp only [Bool.not_eq_true', Bool.not_eq_false]
          exact (List.elem_iff).2 ha
        have hc2 : List.countP
            (fun i => !((((shuffle s.people).map Person.id).take
              cfg.turnover_out).contains i))
            (((shuffle s.people).map Person.id).drop cfg.turnover_out)
            = (((shuffle s.people).map Person.id).drop cfg.turnover_out).length := by
          rw [List.countP_eq_length]
          intro a ha
          simp only [Bool.not_eq_true', Bool.not_eq_false, ← Bool.not_eq_true]
          intro hcontra
          exact hndSI.2.2 ((List.elem_iff).1 hcontra) ha
        rw [hc1, hc2, List.length_drop, List.length_map, hperm.length_eq]
        omega

theorem processEntries_people_length (cfg : Cfg) (wf : Nat → ℚ) (s : MarketState) :
    (processEntries cfg wf s).people.length = s.people.length + cfg.turnover_in := by
  unfold processEntries
  split
  · rename_i h0
    rw [h0]
    rfl
  · show (s.people ++ _).length = _
    rw [List.length_append, List.length_map, List.length_range]

theorem batchStep_people_ids (cfg : Cfg) (hpb : Nat) (s : MarketState) :
    (batchStep cfg hpb s).people.map Person.id = s.people.map Person.id := by
  show ((execBuys (resultBuys (batchResults cfg hpb s)) s.people s.houses).1).map
    Person.id = _
  exact (execBuys_map_ids _ _ _).1

theorem runBatches_people_ids (cfg : Cfg) (hpb : Nat) :
    ∀ (fuel : Nat) (s : MarketState),
      (runBatches cfg hpb fuel s).1.people.map Person.id
        = s.people.map Person.id := by
  intro fuel
  induction fuel with
  | zero => intro s; rfl
  | succ fuel ih =>
    intro s
    by_cases h1 : s.availableHouses.isEmpty
    · simp only [runBatches, h1, if_true]
    · by_cases h2 : (lookupHouses s.houses (s.availableHouses.take hpb)).isEmpty
      · simp only [runBatches, h1, h2, Bool.false_eq_true, if_false, if_true]
      · have hgo : (runBatches cfg hpb (fuel + 1) s).1
            = (runBatches cfg hpb fuel (batchStep cfg hpb s)).1 := by
          simp only [runBatches]
          rw [if_neg (by rw [Bool.not_eq_true] at h1; rw [h1]; exact Bool.false_ne_true),
            if_neg (by rw [Bool.not_eq_true] at h2; rw [h2]; exact Bool.false_ne_true)]
        rw [hgo, ih (batchStep cfg hpb s), batchStep_people_ids]

theorem conductAuctions_people_ids (cfg : Cfg) (s : MarketState) :
    (conductAuctions cfg s).people.map Person.id = s.people.map Person.id := by
  unfold conductAuctions
  split
  · rfl
  · exact runBatches_people_ids cfg _ _ s

theorem tick_people_length {cfg : Cfg} {shuffle : List Person → List Person}
    {wf : Nat → ℚ} {s : MarketState}
    (hperm : (shuffle s.people).Perm s.people)
    (nd : (s.people.map Person.id).Nodup) :
    (tick cfg shuffle wf s).people.length
      = s.people.length - min cfg.turnover_out s.people.length + cfg.turnover_in := by
  show (conductAuctions cfg (processEntries cfg wf (processExits cfg shuffle
    (marketApplyVacantDeprec cfg.vacant_depreciation
      { s with
        tickCount := s.tickCount + 1,
        houses := s.houses.map House.incrementYears })))).people.length = _
  have hdep : (marketApplyVacantDeprec cfg.vacant_depreciation
      { s with
        tickCount := s.tickCount + 1,
        houses := s.houses.map House.incrementYears }).people = s.people := by
    unfold marketApplyVacantDeprec
    split <;> rfl
  have hlen1 := congrArg List.length
    (conductAuctions_people_ids cfg (processEntries cfg wf (processExits cfg shuffle
      (marketApplyVacantDeprec cfg.vacant_depreciation
        { s with
          tickCount := s.tickCount + 1,
          houses := s.houses.map House.incrementYears }))))
  simp only [List.length_map] at hlen1
  rw [hlen1, processEntries_people_length]
  have hexlen : (processExits cfg shuffle (marketApplyVacantDeprec
      cfg.vacant_depreciation
      { s with
        tickCount := s.tickCount + 1,
        houses := s.houses.map House.incrementYears })).people.length
      = s.people.length - min cfg.turnover_out s.people.length := by
    have := @processExits_people_length cfg shuffle
      (marketApplyVacantDeprec cfg.vacant_depreciation
        { s with
          tickCount := s.tickCount + 1,
          houses := s.houses.map House.incrementYears })
      (by rw [hdep]; exact hperm) (by rw [hdep]; exact nd)
    rw [hdep] at this
    exact this
  rw [hexlen]

theorem runBatches_go_eq {cfg : Cfg} {hpb fuel : Nat} {s : MarketState}
    (h1 : s.availableHouses.isEmpty = false)
    (h2 : (lookupHouses s.houses (s.availableHouses.take hpb)).isEmpty = false) :
    runBatches cfg hpb (fuel + 1) s
      = ((runBatches cfg hpb fuel (batchStep cfg hpb s)).1,
         batchResults cfg hpb s :: (runBatches cfg hpb fuel (batchStep cfg hpb s)).2) := by
  simp only [runBatches]
  rw [if_neg (by rw [h1]; exact Bool.false_ne_true),
    if_neg (by rw [h2]; exact Bool.false_ne_true)]

theorem runBatches_length_le (cfg : Cfg) (hpb : Nat) :
    ∀ (fuel : Nat) (s : MarketState),
      (runBatches cfg hpb fuel s).2.length ≤ fuel := by
  intro fuel
  induction fuel with
  | zero => intro s; exact Nat.le_refl 0
  | succ fuel ih =>
    intro s
    cases h1 : s.availableHouses.isEmpty with
    | true =>
      simp only [runBatches, h1, if_true]
      exact Nat.zero_le _
    | false =>
      cases h2 : (lookupHouses s.houses (s.availableHouses.take hpb)).isEmpty with
      | true =>
        simp only [runBatches, h1, h2, Bool.false_eq_true, if_false, if_true]
        exact Nat.zero_le _
      | false =>
        rw [runBatches_go_eq h1 h2]
        show (batchResults cfg hpb s :: _).length ≤ fuel + 1
        rw [List.length_cons]
        exact Nat.succ_le_succ (ih (batchStep cfg hpb s))

theorem contains_append_not (A B : List Nat) (x : Nat) :
    (!((A ++ B).contains x)) = (!(A.contains x) && !(B.contains x)) := by
  by_cases hA : x ∈ A
  · simp [List.elem_iff, hA]
  · by_cases hB : x ∈ B <;> simp [List.elem_iff, hA, hB]

theorem runBatches_avail (cfg : Cfg) (hpb : Nat) :
    ∀ (fuel : Nat) (s : MarketState),
      (runBatches cfg hpb fuel s).1.availableHouses
        = s.availableHouses.filter
            (fun hid => !((soldIds ((runBatches cfg hpb fuel s).2.flatten)).contains hid)) := by
  intro fuel
  induction fuel with
  | zero =>
    intro s
    show s.availableHouses = s.availableHouses.filter _
    rw [List.filter_eq_self.2]
    intro a _
    rfl
  | succ fuel ih =>
    intro s
    cases h1 : s.availableHouses.isEmpty with
    | true =>
      simp only [runBatches, h1, if_true]
      rw [List.filter_eq_self.2]
      intro a _
      rfl
    | false =>
      cases h2 : (lookupHouses s.houses (s.availableHouses.take hpb)).isEmpty with
      | true =>
        simp only [runBatches, h1, h2, Bool.false_eq_true, if_false, if_true]
        rw [List.filter_eq_self.2]
        intro a _
        rfl
      | false =>
        rw [runBatches_go_eq h1 h2]
        show (runBatches cfg hpb fuel (batchStep cfg hpb s)).1.availableHouses = _
        rw [ih (batchStep cfg hpb s)]
        show ((s.availableHouses.filter _).filter _) = _
        rw [List.filter_filter]
        apply List.filter_congr
        intro x _
        rw [show ((runBatches cfg hpb fuel (batchStep cfg hpb s)).1,
          batchResults cfg hpb s :: (runBatches cfg hpb fuel
            (batchStep cfg hpb s)).2).2.flatten
          = batchResults cfg hpb s ++
            (runBatches cfg hpb fuel (batchStep cfg hpb s)).2.flatten from rfl]
        rw [soldIds_append, contains_append_not, Bool.and_comm]

theorem runBatches_results_mem (cfg : Cfg) (hpb : Nat) :
    ∀ (fuel : Nat) (s : MarketState) (b : List AuctionResult) (r : AuctionResult),
      b ∈ (runBatches cfg hpb fuel s).2 → r ∈ b → r.houseId ∈ s.availableHouses := by
  intro fuel
  induction fuel with
  | zero => intro s b r hb; cases hb
  | succ fuel ih =>
    intro s b r hb hr
    cases h1 : s.availableHouses.isEmpty with
    | true =>
      rw [show (runBatches cfg hpb (fuel+1) s).2 = [] by simp only [runBatches, h1, if_true]]
        at hb
      cases hb
    | false =>
      cases h2 : (lookupHouses s.houses (s.availableHouses.take hpb)).isEmpty with
      | true =>
        rw [show (runBatches cfg hpb (fuel+1) s).2 = [] by
          simp only [runBatches, h1, h2, Bool.false_eq_true, if_false, if_true]] at hb
        cases hb
      | false =>
        rw [runBatches_go_eq h1 h2] at hb
        rcases List.mem_cons.1 hb with hbe | hbm
        · subst hbe
          have hmap : r.houseId ∈ (batchResults cfg hpb s).map (fun r => r.houseId) :=
            List.mem_map.2 ⟨r, hr, rfl⟩
          have hbatch : (batchResults cfg hpb s).map (fun r => r.houseId)
              = (lookupHouses s.houses (s.availableHouses.take hpb)).map House.id :=
            conductVickreyAuctionAux_map_houseId _ _ _ _ _ _
          rw [hbatch] at hmap
          exact (List.take_sublist _ _).subset
            ((lookupHouses_map_id_sublist _ _).subset hmap)
        · have := ih (batchStep cfg hpb s) b r hbm hr
          have hsub : (batchStep cfg hpb s).availableHouses ⊆ s.availableHouses := by
            intro x hx
            exact List.mem_of_mem_filter hx
          exact hsub this

theorem forall₂_self_map {α β : Type} (f : α → β) (l : List α) :
    List.Forall₂ (fun a b => b = f a) l (l.map f) := by
  induction l with
  | nil => exact List.Forall₂.nil
  | cons a l ih => exact List.Forall₂.cons rfl ih

theorem sum_map_const_q (w : List ℚ) (c : ℚ) :
    (w.map (fun _ => c)).sum = w.length * c := by
  induction w with
  | nil => simp
  | cons a w ih =>
    rw [List.map_cons, List.sum_cons, ih, List.length_cons]
    push_cast
    ring

theorem giniSum_le (w : List ℚ) (hnn : ∀ x ∈ w, 0 ≤ x) :
    (w.map (fun wi => (w.map (fun wj => |wi - wj|)).sum)).sum
      ≤ 2 * (w.length : ℚ) * w.sum := by
  have hinner : ∀ wi ∈ w, (w.map (fun wj => |wi - wj|)).sum
      ≤ (w.length : ℚ) * wi + w.sum := by
    intro wi hwi
    have hstep : (w.map (fun wj => |wi - wj|)).sum
        ≤ (w.map (fun wj => wi + wj)).sum := by
      apply List.sum_le_sum
      intro wj hwj
      calc |wi - wj| ≤ |wi| + |wj| := abs_sub _ _
        _ = wi + wj := by rw [abs_of_nonneg (hnn wi hwi), abs_of_nonneg (hnn wj hwj)]
    refine hstep.trans (le_of_eq ?_)
    rw [List.sum_map_add (f := fun _ => wi) (g := fun wj => wj), sum_map_const_q,
      List.map_id']
  calc (w.map (fun wi => (w.map (fun wj => |wi - wj|)).sum)).sum
      ≤ (w.map (fun wi => (w.length : ℚ) * wi + w.sum)).sum := List.sum_le_sum hinner
    _ = 2 * (w.length : ℚ) * w.sum := by
        rw [List.sum_map_add (f := fun wi => (w.length : ℚ) * wi) (g := fun _ => w.sum),
          sum_map_const_q]
        have hml : (w.map (fun wi => (w.length : ℚ) * wi)).sum
            = (w.length : ℚ) * w.sum := by
          have := List.sum_map_mul_left w (fun x => x) ((w.length : ℚ))
          rw [List.map_id'] at this
          exact this
        rw [hml]
        ring

theorem giniCoefficient_eq_of_cond {w : List ℚ} (hcond : 1 < w.length ∧ 0 < w.sum) :
    giniCoefficient w
      = (w.map (fun wi => (w.map (fun wj => |wi - wj|)).sum)).sum
        / (2 * (w.length : ℚ) * (w.length : ℚ) * (w.sum / (w.length : ℚ))) := by
  simp only [giniCoefficient]
  rw [if_pos hcond]

theorem giniCoefficient_eq_zero_of_not_cond {w : List ℚ}
    (hcond : ¬ (1 < w.length ∧ 0 < w.sum)) : giniCoefficient w = 0 := by
  simp only [giniCoefficient]
  rw [if_neg hcond]

theorem giniCoefficient_bounds (w : List ℚ) (hnn : ∀ x ∈ w, 0 ≤ x) :
    0 ≤ giniCoefficient w ∧ giniCoefficient w ≤ 1 := by
  by_cases hcond : 1 < w.length ∧ 0 < w.sum
  · obtain ⟨hn, ht⟩ := hcond
    have hn0 : (0:ℚ) < (w.length : ℚ) := by
      have : 0 < w.length := Nat.lt_of_lt_of_le Nat.zero_lt_one (Nat.le_of_lt hn)
      exact_mod_cast this
    have hD : 2 * (w.length : ℚ) * (w.length : ℚ) * (w.sum / (w.length : ℚ))
        = 2 * (w.length : ℚ) * w.sum := by
      field_simp
      ring
    have hDpos : 0 < 2 * (w.length : ℚ) * (w.length : ℚ) * (w.sum / (w.length : ℚ)) := by
      rw [hD]
      positivity
    have hnum : 0 ≤ (w.map (fun wi => (w.map (fun wj => |wi - wj|)).sum)).sum := by
      apply List.sum_nonneg
      intro x hx
      obtain ⟨wi, _, himg⟩ := List.mem_map.1 hx
      rw [← himg]
      apply List.sum_nonneg
      intro y hy
      obtain ⟨wj, _, himg2⟩ := List.mem_map.1 hy
      rw [← himg2]
      exact abs_nonneg _
    rw [giniCoefficient_eq_of_cond ⟨hn, ht⟩]
    constructor
    · exact div_nonneg hnum (le_of_lt hDpos)
    · rw [div_le_one hDpos, hD]
      exact giniSum_le w hnn
  · rw [giniCoefficient_eq_zero_of_not_cond hcond]
    exact ⟨le_refl 0, zero_le_one⟩

theorem giniCoefficient_const (w : List ℚ) (hc : ∀ x ∈ w, ∀ y ∈ w, x = y) :
    giniCoefficient w = 0 := by
  by_cases hcond : 1 < w.length ∧ 0 < w.sum
  · rw [giniCoefficient_eq_of_cond hcond]
    have hzero : (w.map (fun wi => (w.map (fun wj => |wi - wj|)).sum)).sum = 0 := by
      apply List.sum_eq_zero
      intro x hx
      obtain ⟨wi, hwi, himg⟩ := List.mem_map.1 hx
      rw [← himg]
      apply List.sum_eq_zero
      intro y hy
      obtain ⟨wj, hwj, himg2⟩ := List.mem_map.1 hy
      rw [← himg2, hc wi hwi wj hwj]
      simp
    rw [hzero, zero_div]
  · exact giniCoefficient_eq_zero_of_not_cond hcond

theorem foldExits_avail_mono (E : List Nat) :
    ∀ (st : List Person × List House × List Nat) (x : Nat),
      x ∈ st.2.2 → x ∈ (E.foldl exitOne st).2.2 := by
  induction E with
  | nil => intro st x hx; exact hx
  | cons pid E ih =>
    intro st x hx
    rw [List.foldl_cons]
    refine ih (exitOne st pid) x ?_
    cases hf : findPerson st.1 pid with
    | none => rw [exitOne_eq_of_none hf]; exact hx
    | some p =>
      cases hph : p.house with
      | none => rw [exitOne_eq_of_nohouse hf hph]; exact hx
      | some hid =>
        rw [exitOne_eq_of_house hf hph]
        exact List.mem_append_left _ hx

theorem foldExits_releases (E : List Nat) :
    ∀ (st : List Person × List House × List Nat),
      (st.1.map Person.id).Nodup → E.Nodup →
      ∀ pid ∈ E, ∀ p, findPerson st.1 pid = some p →
      ∀ hid, p.house = some hid → hid ∈ (E.foldl exitOne st).2.2 := by
  induction E with
  | nil => intro st _ _ pid hpid; cases hpid
  | cons pid₀ E ih =>
    intro st nd ndE pid hpid p hf hid hph
    rw [List.foldl_cons]
    rcases List.mem_cons.1 hpid with heq | hmem
    · subst heq
      refine foldExits_avail_mono E (exitOne st pid) hid ?_
      rw [exitOne_eq_of_house hf hph]
      exact List.mem_append_right _ (List.mem_singleton.2 rfl)
    · have hne : pid ≠ pid₀ := by
        intro hcontra
        rw [List.nodup_cons] at ndE
        exact ndE.1 (hcontra ▸ hmem)
      have hf' : findPerson (exitOne st pid₀).1 pid = some p := by
        cases hf0 : findPerson st.1 pid₀ with
        | none => rw [exitOne_eq_of_none hf0]; exact hf
        | some p₀ =>
          cases hph0 : p₀.house with
          | none => rw [exitOne_eq_of_nohouse hf0 hph0]; exact hf
          | some hid₀ =>
            rw [exitOne_eq_of_house hf0 hph0, sellHouseUpd_eq_of_house hf0 hph0]
            show findPerson (updPerson st.1 pid₀ _) pid = some p
            rw [findPerson_updPerson_ne st.1 pid pid₀
              (fun q => { q with house := none }) (fun q => rfl) hne]
            exact hf
      have nd' : ((exitOne st pid₀).1.map Person.id).Nodup := by
        rw [(exitOne_map_ids st pid₀).1]
        exact nd
      exact ih (exitOne st pid₀) nd' (List.nodup_cons.1 ndE).2 pid hmem p hf' hid hph

theorem exitingPeople_subset {cfg : Cfg} {shuffle : List Person → List Person}
    {s : MarketState} (hperm : (shuffle s.people).Perm s.people) :
    ∀ p ∈ exitingPeople cfg shuffle s, p ∈ s.people := by
  intro p hp
  unfold exitingPeople selectRandomElements at hp
  by_cases h0 : cfg.turnover_out = 0
  · rw [if_pos h0] at hp; cases hp
  · rw [if_neg h0] at hp
    split at hp
    · exact hp
    · exact hperm.mem_iff.1 ((List.take_sublist _ _).subset hp)

theorem exitingPeople_ids_nodup {cfg : Cfg} {shuffle : List Person → List Person}
    {s : MarketState} (hperm : (shuffle s.people).Perm s.people)
    (nd : (s.people.map Person.id).Nodup) :
    ((exitingPeople cfg shuffle s).map Person.id).Nodup := by
  unfold exitingPeople selectRandomElements
  by_cases h0 : cfg.turnover_out = 0
  · rw [if_pos h0]; exact List.nodup_nil
  · rw [if_neg h0]
    split
    · exact nd
    · rw [List.map_take]
      exact ((hperm.map Person.id).nodup_iff.2 nd).sublist (List.take_sublist _ _)

/-! ## Claim theorems -/

unseal List.merge List.mergeSort Rat.mul Rat.add Rat.sub Rat.inv in
/-- Claim C1: in every single-dwelling auction with a non-empty set of
eligible bidders, the winner is an eligible bidder of maximal bid and every
bid is the bidder's full wealth; with exactly one eligible bidder the
clearing price is 0.75 times that bidder's bid, and with two or more it is
the second-highest bid (the maximum of the bids after removing one
occurrence of the winning bid).  In particular, for eligible bidder wealths
[700k, 500k, 300k] the winner is the 700k bidder and the clearing price is
exactly 500k. -/
theorem c1_vickrey_single_auction :
    (∀ (people : List Person) (houses : List House) (h : House) (vi ut : ℚ)
      (aw : List Nat),
      people.filter (fun p => !(aw.contains p.id) && p.shouldBid houses h ut) ≠ [] →
      ∃ p ∈ people.filter (fun p => !(aw.contains p.id) && p.shouldBid houses h ut),
        (auctionSingleHouse people houses h vi ut aw).winner = some p.id ∧
        (auctionSingleHouse people houses h vi ut aw).winningBid = p.wealth ∧
        (∀ q ∈ people.filter (fun p => !(aw.contains p.id) && p.shouldBid houses h ut),
          q.wealth ≤ (auctionSingleHouse people houses h vi ut aw).winningBid) ∧
        ((people.filter (fun p => !(aw.contains p.id) &&
          p.shouldBid houses h ut)).length = 1 →
          (auctionSingleHouse people houses h vi ut aw).secondPrice
            = (auctionSingleHouse people houses h vi ut aw).winningBid * (3/4)) ∧
        (2 ≤ (people.filter (fun p => !(aw.contains p.id) &&
          p.shouldBid houses h ut)).length →
          (auctionSingleHouse people houses h vi ut aw).secondPrice ∈
            ((people.filter (fun p => !(aw.contains p.id) &&
              p.shouldBid houses h ut)).map Person.wealth).erase
              (auctionSingleHouse people houses h vi ut aw).winningBid ∧
          (∀ x ∈ ((people.filter (fun p => !(aw.contains p.id) &&
              p.shouldBid houses h ut)).map Person.wealth).erase
              (auctionSingleHouse people houses h vi ut aw).winningBid,
            x ≤ (auctionSingleHouse people houses h vi ut aw).secondPrice))) ∧
    ((c1People.filter (fun p => !(([] : List Nat).contains p.id) &&
        p.shouldBid [c1House] c1House (3/2))).map Person.wealth
      = [700000, 500000, 300000] ∧
     (auctionSingleHouse c1People [c1House] c1House (7/10) (3/2) []).winner = some 1 ∧
     (auctionSingleHouse c1People [c1House] c1House (7/10) (3/2) []).secondPrice
      = 500000) := by
  refine ⟨auctionSingleHouse_spec, ?_, ?_, ?_⟩ <;> decide

unseal List.merge List.mergeSort Rat.mul Rat.add Rat.sub Rat.inv in
/-- Witness for C1: the general clause applied to the concrete 700k/500k/300k
bidder pool, with the non-empty-bidders hypothesis discharged by computation. -/
theorem c1_vickrey_single_auction_witness :
    c1People.filter (fun p => !(([] : List Nat).contains p.id) &&
      p.shouldBid [c1House] c1House (3/2)) ≠ [] ∧
    ∃ p ∈ c1People.filter (fun p => !(([] : List Nat).contains p.id) &&
      p.shouldBid [c1House] c1House (3/2)),
      (auctionSingleHouse c1People [c1House] c1House (7/10) (3/2) []).winner = some p.id ∧
      (auctionSingleHouse c1People [c1House] c1House (7/10) (3/2) []).winningBid
        = p.wealth ∧
      (∀ q ∈ c1People.filter (fun p => !(([] : List Nat).contains p.id) &&
        p.shouldBid [c1House] c1House (3/2)),
        q.wealth ≤ (auctionSingleHouse c1People [c1House] c1House (7/10) (3/2) []).winningBid) ∧
      ((c1People.filter (fun p => !(([] : List Nat).contains p.id) &&
        p.shouldBid [c1House] c1House (3/2))).length = 1 →
        (auctionSingleHouse c1People [c1House] c1House (7/10) (3/2) []).secondPrice
          = (auctionSingleHouse c1People [c1House] c1House (7/10) (3/2) []).winningBid
            * (3/4)) ∧
      (2 ≤ (c1People.filter (fun p => !(([] : List Nat).contains p.id) &&
        p.shouldBid [c1House] c1House (3/2))).length →
        (auctionSingleHouse c1People [c1House] c1House (7/10) (3/2) []).secondPrice ∈
          ((c1People.filter (fun p => !(([] : List Nat).contains p.id) &&
            p.shouldBid [c1House] c1House (3/2))).map Person.wealth).erase
            (auctionSingleHouse c1People [c1House] c1House (7/10) (3/2) []).winningBid ∧
        (∀ x ∈ ((c1People.filter (fun p => !(([] : List Nat).contains p.id) &&
            p.shouldBid [c1House] c1House (3/2))).map Person.wealth).erase
            (auctionSingleHouse c1People [c1House] c1House (7/10) (3/2) []).winningBid,
          x ≤ (auctionSingleHouse c1People [c1House] c1House (7/10) (3/2) []).secondPrice)) := by
  exact ⟨by decide,
    c1_vickrey_single_auction.1 c1People [c1House] c1House (7/10) (3/2) [] (by decide)⟩

unseal List.merge List.mergeSort Rat.mul Rat.add Rat.sub Rat.inv in
/-- Counterexample to claim C2: in one tick with two batches, the single
rich participant wins house 1 in the first batch and house 2 in the second
batch, so the winners recorded over all batches of the tick are [1, 1] —
a duplicate.  The already-won set is created afresh for every batch. -/
theorem c2_counterexample :
    winnersOf (tick c2Cfg (fun l => l) (fun _ => 0) c2State).lastAuctionResults
      = [1, 1] ∧
    ¬ (winnersOf (tick c2Cfg (fun l => l) (fun _ => 0)
        c2State).lastAuctionResults).Nodup := by
  constructor <;> decide

/-- Claim C2 (amended): within a single auction batch the set of winners
contains no duplicates — a participant who wins a dwelling is excluded from
the remaining dwellings of the same batch.  Across different batches of the
same tick the exclusion does not apply (each batch starts a fresh
already-won set), so a participant may win again in a later batch. -/
theorem c2_within_batch_exclusivity :
    ∀ (people : List Person) (houses : List House) (batch : List House)
      (vi ut : ℚ),
      (winnersOf (conductVickreyAuction people houses batch vi ut)).Nodup :=
  fun people houses batch vi ut =>
    (conductVickreyAuctionAux_winners people houses vi ut batch []).2

unseal List.merge List.mergeSort Rat.mul Rat.add Rat.sub Rat.inv in
/-- Counterexample to claim C3: with two available dwellings, two batches
and no bidders, house 1 (which fails to sell in batch 1) is auctioned AGAIN
in batch 2, and house 2 is never put up at all — the batches are not a
partition of the available dwellings. -/
theorem c3_counterexample :
    ((tick c3Cfg (fun l => l) (fun _ => 0) c3State).lastAuctionResults.map
      (fun r => r.houseId)) = [1, 1] ∧
    2 ∈ c3State.availableHouses ∧
    2 ∉ ((tick c3Cfg (fun l => l) (fun _ => 0) c3State).lastAuctionResults.map
      (fun r => r.houseId)) := by
  refine ⟨?_, ?_, ?_⟩ <;> decide

/-- Claim C3 (amended): the clearing step runs at most n_auction_steps
batches; every auctioned dwelling comes from the availableHouses list at the
start of clearing; after clearing, exactly the sold dwellings have been
removed from availableHouses (unsold ones persist, and since each batch is
the first ceil(available/n_auction_steps) entries of the CURRENT list, an
unsold dwelling can be auctioned again in a later batch of the same tick
while trailing dwellings may not be auctioned at all). -/
theorem c3_batching :
    (∀ (cfg : Cfg) (hpb fuel : Nat) (s : MarketState),
      (runBatches cfg hpb fuel s).2.length ≤ fuel ∧
      (∀ b ∈ (runBatches cfg hpb fuel s).2, ∀ r ∈ b,
        r.houseId ∈ s.availableHouses) ∧
      (runBatches cfg hpb fuel s).1.availableHouses
        = s.availableHouses.filter
            (fun hid =>
              !((soldIds ((runBatches cfg hpb fuel s).2.flatten)).contains hid))) ∧
    (∀ (cfg : Cfg) (s : MarketState), s.availableHouses ≠ [] →
      ∀ r ∈ (conductAuctions cfg s).lastAuctionResults,
        r.houseId ∈ s.availableHouses) := by
  constructor
  · intro cfg hpb fuel s
    exact ⟨runBatches_length_le cfg hpb fuel s,
      fun b hb r hr => runBatches_results_mem cfg hpb fuel s b r hb hr,
      runBatches_avail cfg hpb fuel s⟩
  · intro cfg s hne r hr
    have hE : s.availableHouses.isEmpty = false := by
      rw [List.isEmpty_eq_false_iff_exists_mem]
      cases hx : s.availableHouses with
      | nil => exact absurd hx hne
      | cons a as => exact ⟨a, List.mem_cons_self a as⟩
    have hlast : (conductAuctions cfg s).lastAuctionResults
        = (runBatches cfg (housesPerBatchOf s.availableHouses.length
            cfg.n_auction_steps) cfg.n_auction_steps s).2.flatten := by
      unfold conductAuctions
      rw [if_neg (by rw [hE]; exact Bool.false_ne_true)]
    rw [hlast] at hr
    obtain ⟨b, hb, hrb⟩ := List.mem_flatten.1 hr
    exact runBatches_results_mem cfg _ cfg.n_auction_steps s b r hb hrb

unseal List.merge List.mergeSort Rat.mul Rat.add Rat.sub Rat.inv in
/-- Witness for C3 (amended): the conductAuctions clause applied to the
concrete no-bidder market, with the non-empty hypothesis discharged by
computation. -/
theorem c3_batching_witness :
    c3State.availableHouses ≠ [] ∧
    (∀ r ∈ (conductAuctions c3Cfg c3State).lastAuctionResults,
      r.houseId ∈ c3State.availableHouses) := by
  exact ⟨by decide, c3_batching.2 c3Cfg c3State (by decide)⟩

unseal List.merge List.mergeSort Rat.mul Rat.add Rat.sub Rat.inv in
/-- Claim C4 (code bug): on a market where the sole participant owns house 1
and upgrades to the available house 2 during the tick, the end-of-tick
statistics report 1 occupied + 0 available ≠ 2 total dwellings: the upgrade
frees house 1 (its owner is unset and the new owner's record points at
house 2), but house 1 is never put back into the engine's available-houses
list — not at the end of this tick nor during the next one, contradicting
both conjuncts of the claim (the spec, the comments in
Auction.executeTransactions, and the repository's own tests). -/
theorem c4_occupancy_accounting :
    (winnersOf c4Tick1.lastAuctionResults = [1] ∧
     (findPerson c4Tick1.people 1).map Person.house = some (some 2)) ∧
    ((getMarketStats c4Tick1).occupiedHouses = 1 ∧
     (getMarketStats c4Tick1).availableHouses = 0 ∧
     (getMarketStats c4Tick1).totalHouses = 2) ∧
    (getMarketStats c4Tick1).occupiedHouses + (getMarketStats c4Tick1).availableHouses
      ≠ (getMarketStats c4Tick1).totalHouses ∧
    (findHouse c4Tick1.houses 1).map House.owner = some none ∧
    1 ∉ c4Tick1.availableHouses ∧
    (findHouse c4Tick2.houses 1).map House.owner = some none ∧
    1 ∉ c4Tick2.availableHouses := by
  refine ⟨⟨?_, ?_⟩, ⟨?_, ?_, ?_⟩, ?_, ?_, ?_, ?_, ?_⟩ <;> decide

unseal Rat.mul Rat.add Rat.sub Rat.inv in
/-- Counterexample to claim C5: with configured intrinsicness 0, a dwelling
with huge intrinsic value but zero last sale price has spec value 0, so the
spec's rule lets a 100k-wealth participant bid; the source's shouldBid
evaluates the dwelling with the fixed default weight 0.7 (value 700k) and
refuses the bid.  The configured value_intrinsicness is not what
Person.shouldBid uses. -/
theorem c5_counterexample :
    Person.shouldBid [c5House] c5Person c5House (3/2) = false ∧
    shouldBidSpec 0 [c5House] c5Person c5House (3/2) = true ∧
    Person.shouldBid [c5House] c5Person c5House (3/2)
      ≠ shouldBidSpec 0 [c5House] c5Person c5House (3/2) := by
  refine ⟨?_, ?_, ?_⟩ <;> decide

/-- Claim C5 (amended): Person.shouldBid follows the spec's eligibility rule
evaluated on dwelling values computed with the FIXED DEFAULT intrinsicness
0.7 (House.calculateValue's default parameter), for every participant,
dwelling, housing stock and upgrade threshold — not with the configured
value_intrinsicness, which only reaches the auction's value display. -/
theorem c5_shouldBid_default_weight :
    ∀ (houses : List House) (p : Person) (h : House) (ut : ℚ),
      Person.shouldBid houses p h ut = shouldBidSpec (7/10) houses p h ut := by
  intro houses p h ut
  unfold Person.shouldBid shouldBidSpec Person.canAfford House.calculateValueDefault
  rfl

/-- From the engine invariant: two participants referencing the same dwelling
are the same participant. -/
theorem invP_house_unique {s : MarketState} (hs : InvP s) :
    ∀ p ∈ s.people, ∀ q ∈ s.people, ∀ hid : Nat,
      p.house = some hid → q.house = some hid → p = q := by
  intro p hp q hq hid hph hqh
  obtain ⟨ndP, ndH, _, hlink⟩ := hs.1
  obtain ⟨h₁, hh₁, hid₁, hown₁⟩ := hlink p hp hid (by rw [hph]; exact List.mem_singleton.2 rfl)
  obtain ⟨h₂, hh₂, hid₂, hown₂⟩ := hlink q hq hid (by rw [hqh]; exact List.mem_singleton.2 rfl)
  have hhe : h₁ = h₂ :=
    mem_nodup_houseId_unique ndH hh₁ hh₂ (hid₁.trans hid₂.symm)
  have hide : p.id = q.id := by
    have := hown₁
    rw [hhe, hown₂] at this
    exact (Option.some_injective _ this).symm
  exact mem_nodup_id_unique ndP hp hq hide

/-- Claim C6: the engine invariant InvP — bidirectionally consistent
ownership links (with unique ids and a consistent available list) — holds
after market initialization and is preserved by every tick; consequently at
those points every owned dwelling's owner points back to it, every housed
participant's dwelling points back to them, and no two participants
reference the same dwelling (single ownership per participant is structural:
a participant holds at most one dwelling reference). -/
theorem c6_ownership_links :
    (∀ (houseVals wealths : List ℚ) (startYear : Int),
      InvP (initMarket houseVals wealths startYear)) ∧
    (∀ (cfg : Cfg) (shuffle : List Person → List Person) (wf : Nat → ℚ)
      (s : MarketState), InvP s → InvP (tick cfg shuffle wf s)) ∧
    (∀ s : MarketState, InvP s →
      (∀ h ∈ s.houses, ∀ pid ∈ h.owner.toList,
        ∃ p ∈ s.people, p.id = pid ∧ p.house = some h.id) ∧
      (∀ p ∈ s.people, ∀ hid ∈ p.house.toList,
        ∃ h ∈ s.houses, h.id = hid ∧ h.owner = some p.id) ∧
      (∀ p ∈ s.people, ∀ q ∈ s.people, ∀ hid : Nat,
        p.house = some hid → q.house = some hid → p = q)) := by
  refine ⟨initMarket_invP, fun cfg shuffle wf s hs => tick_invP hs, fun s hs => ?_⟩
  exact ⟨hs.1.2.2.1, hs.1.2.2.2, invP_house_unique hs⟩

unseal List.merge List.mergeSort Rat.mul Rat.add Rat.sub Rat.inv in
/-- Witness for C6: the tick-preservation clause applied to the concrete
two-person market, with the invariant hypothesis discharged by computation. -/
theorem c6_ownership_links_witness :
    InvP w6State ∧ InvP (tick w6Cfg (fun l => l) (fun _ => 0) w6State) := by
  exact ⟨by decide,
    c6_ownership_links.2.1 w6Cfg (fun l => l) (fun _ => 0) w6State (by decide)⟩

/-- Claim C7: assuming the shuffle oracle permutes the population and ids
are unique, one tick takes the population from previous_size to
previous_size − min(turnover_out, previous_size) + turnover_in; the exiting
participants are drawn from the entire live population (the selection is a
subset of all people, housed or not), every exiting owner's dwelling id is
released into the available pool by the exit step, and the entry step
appends exactly turnover_in new participants, all unhoused. -/
theorem c7_turnover_accounting :
    ∀ (cfg : Cfg) (shuffle : List Person → List Person) (wf : Nat → ℚ)
      (s : MarketState),
      (shuffle s.people).Perm s.people →
      (s.people.map Person.id).Nodup →
      ((tick cfg shuffle wf s).people.length
        = s.people.length - min cfg.turnover_out s.people.length
          + cfg.turnover_in) ∧
      (∀ p ∈ exitingPeople cfg shuffle s, p ∈ s.people) ∧
      (∀ p ∈ exitingPeople cfg shuffle s, ∀ hid : Nat, p.house = some hid →
        hid ∈ (processExits cfg shuffle s).availableHouses) ∧
      (∃ newcomers : List Person,
        (processEntries cfg wf s).people = s.people ++ newcomers ∧
        newcomers.length = cfg.turnover_in ∧
        ∀ p ∈ newcomers, p.house = none) := by
  intro cfg shuffle wf s hperm nd
  refine ⟨tick_people_length hperm nd, exitingPeople_subset hperm, ?_, ?_⟩
  · intro p hp hid hph
    by_cases h0 : cfg.turnover_out = 0
    · have : exitingPeople cfg shuffle s = [] := by
        unfold exitingPeople
        rw [if_pos h0]
      rw [this] at hp
      cases hp
    · have hne : (exitingPeople cfg shuffle s).isEmpty = false := by
        cases hx : exitingPeople cfg shuffle s with
        | nil => rw [hx] at hp; cases hp
        | cons a l => rfl
      rw [processExits_eq_of_go h0 hne]
      refine foldExits_releases ((exitingPeople cfg shuffle s).map Person.id)
        (s.people, s.houses, s.availableHouses) nd
        (exitingPeople_ids_nodup hperm nd) p.id
        (List.mem_map.2 ⟨p, hp, rfl⟩) p ?_ hid hph
      exact findPerson_nodup_mem nd (exitingPeople_subset hperm p hp) rfl
  · by_cases h0 : cfg.turnover_in = 0
    · refine ⟨[], ?_, ?_, ?_⟩
      · unfold processEntries
        rw [if_pos h0, List.append_nil]
      · rw [h0]; rfl
      · intro p hp; cases hp
    · refine ⟨(List.range cfg.turnover_in).map (fun i =>
        Person.mk (s.nextPersonId + i) (wf i) none s.currentYear), ?_, ?_, ?_⟩
      · unfold processEntries
        rw [if_neg h0]
      · rw [List.length_map, List.length_range]
      · intro p hp
        obtain ⟨i, _, hi⟩ := List.mem_map.1 hp
        rw [← hi]

unseal List.merge List.mergeSort Rat.mul Rat.add Rat.sub Rat.inv in
/-- Witness for C7: the turnover-accounting theorem applied to the concrete
two-person market with one exit and one entry, the permutation hypothesis
discharged by reflexivity and the id-uniqueness hypothesis by computation. -/
theorem c7_turnover_accounting_witness :
    (((fun l => l) w7State.people).Perm w7State.people ∧
      (w7State.people.map Person.id).Nodup) ∧
    ((tick w7Cfg (fun l => l) (fun _ => (0:ℚ)) w7State).people.length
      = w7State.people.length - min w7Cfg.turnover_out w7State.people.length
        + w7Cfg.turnover_in) ∧
    (∀ p ∈ exitingPeople w7Cfg (fun l => l) w7State, p ∈ w7State.people) ∧
    (∀ p ∈ exitingPeople w7Cfg (fun l => l) w7State, ∀ hid : Nat,
      p.house = some hid →
      hid ∈ (processExits w7Cfg (fun l => l) w7State).availableHouses) ∧
    (∃ newcomers : List Person,
      (processEntries w7Cfg (fun _ => (0:ℚ)) w7State).people
        = w7State.people ++ newcomers ∧
      newcomers.length = w7Cfg.turnover_in ∧
      ∀ p ∈ newcomers, p.house = none) := by
  exact ⟨⟨List.Perm.refl _, by decide⟩,
    c7_turnover_accounting w7Cfg (fun l => l) (fun _ => (0:ℚ)) w7State
      (List.Perm.refl _) (by decide)⟩

unseal Rat.mul Rat.add Rat.sub Rat.inv in
/-- Claim C8: with a positive rate, the depreciation step maps the housing
stock pointwise — every then-ownerless dwelling gets intrinsic value
max((1 − rate) · old, 1000) and no other field changes, every owned dwelling
is left entirely unchanged — and touches no other market state; a vacant
dwelling's intrinsic value never ends below the 1000 floor; and a vacant
dwelling at intrinsic value 100000 depreciated twice at rate 1/20 lands on
exactly 90250. -/
theorem c8_depreciation_frame :
    (∀ (rate : ℚ) (s : MarketState), 0 < rate →
      List.Forall₂ (fun h h' =>
        (h.owner = none →
          h' = { h with
            intrinsicValue := max (h.intrinsicValue * (1 - rate)) 1000 }) ∧
        (h.owner ≠ none → h' = h))
        s.houses (marketApplyVacantDeprec rate s).houses) ∧
    (∀ (rate : ℚ) (s : MarketState),
      (marketApplyVacantDeprec rate s).people = s.people ∧
      (marketApplyVacantDeprec rate s).availableHouses = s.availableHouses) ∧
    (∀ (rate : ℚ) (h : House), 0 < rate → h.owner = none →
      1000 ≤ (House.applyVacantDeprec rate h).intrinsicValue) ∧
    (House.applyVacantDeprec (1/20) (House.applyVacantDeprec (1/20)
      ⟨2, 100000, 90000, none, 1⟩)).intrinsicValue = 90250 := by
  refine ⟨?_, ?_, ?_, ?_⟩
  · intro rate s hrate
    have hhouses : (marketApplyVacantDeprec rate s).houses
        = s.houses.map (House.applyVacantDeprec rate) := by
      unfold marketApplyVacantDeprec
      rw [if_neg (not_le.2 hrate)]
    rw [hhouses]
    refine (forall₂_self_map (House.applyVacantDeprec rate) s.houses).imp ?_
    intro a b hb
    subst hb
    constructor
    · intro hown
      unfold House.applyVacantDeprec
      rw [if_pos ⟨hown, hrate⟩]
    · intro hown
      unfold House.applyVacantDeprec
      rw [if_neg (fun hc => hown hc.1)]
  · intro rate s
    constructor <;> (unfold marketApplyVacantDeprec; split <;> rfl)
  · intro rate h hrate hown
    unfold House.applyVacantDeprec
    rw [if_pos ⟨hown, hrate⟩]
    exact le_max_right _ _
  · decide

unseal Rat.mul Rat.add Rat.sub Rat.inv in
/-- Witness for C8: the pointwise frame clause applied at rate 1/20 to the
concrete market with one owned and one vacant dwelling, the positivity
hypothesis discharged by computation. -/
theorem c8_depreciation_frame_witness :
    (0:ℚ) < 1/20 ∧
    List.Forall₂ (fun h h' =>
      (h.owner = none →
        h' = { h with
          intrinsicValue := max (h.intrinsicValue * (1 - (1/20:ℚ))) 1000 }) ∧
      (h.owner ≠ none → h' = h))
      w8State.houses (marketApplyVacantDeprec (1/20) w8State).houses := by
  exact ⟨by decide, c8_depreciation_frame.1 (1/20) w8State (by decide)⟩

/-- Claim C9: for a market with a non-empty population of non-negative
wealths, the Gini coefficient reported by getMarketStats (computed by the
pairwise formula on the descending-sorted wealth list, with the degenerate
n ≤ 1 / zero-total cases defined as 0) lies in [0,1], and is exactly 0
whenever all wealths are equal. -/
theorem c9_gini_bounds :
    ∀ s : MarketState, s.people ≠ [] → (∀ p ∈ s.people, 0 ≤ p.wealth) →
      (0 ≤ (getMarketStats s).giniCoefficient ∧
        (getMarketStats s).giniCoefficient ≤ 1) ∧
      ((∀ p ∈ s.people, ∀ q ∈ s.people, p.wealth = q.wealth) →
        (getMarketStats s).giniCoefficient = 0) := by
  intro s _ hnn
  have hmem : ∀ x ∈ (s.people.map Person.wealth).mergeSort
      (fun a b => decide (b ≤ a)), x ∈ s.people.map Person.wealth :=
    fun x hx => (List.mergeSort_perm (s.people.map Person.wealth)
      (fun a b => decide (b ≤ a))).subset hx
  constructor
  · refine giniCoefficient_bounds _ ?_
    intro x hx
    obtain ⟨p, hp, hpx⟩ := List.mem_map.1 (hmem x hx)
    rw [← hpx]
    exact hnn p hp
  · intro hc
    refine giniCoefficient_const _ ?_
    intro x hx y hy
    obtain ⟨p, hp, hpx⟩ := List.mem_map.1 (hmem x hx)
    obtain ⟨q, hq, hqy⟩ := List.mem_map.1 (hmem y hy)
    rw [← hpx, ← hqy]
    exact hc p hp q hq

unseal List.merge List.mergeSort Rat.mul Rat.add Rat.sub Rat.inv in
/-- Witness for C9: the Gini bounds applied to the concrete three-person
population with wealths 700k / 500k / 300k, both hypotheses discharged by
computation. -/
theorem c9_gini_bounds_witness :
    (w9State.people ≠ [] ∧ (∀ p ∈ w9State.people, 0 ≤ p.wealth)) ∧
    (0 ≤ (getMarketStats w9State).giniCoefficient ∧
      (getMarketStats w9State).giniCoefficient ≤ 1) ∧
    ((∀ p ∈ w9State.people, ∀ q ∈ w9State.people, p.wealth = q.wealth) →
      (getMarketStats w9State).giniCoefficient = 0) := by
  exact ⟨⟨by decide, by decide⟩, c9_gini_bounds w9State (by decide) (by decide)⟩

/-- An if-then-else producing a singleton list is empty iff the condition
fails. -/
theorem ite_singleton_eq_nil {P : Prop} [Decidable P] {m : String} :
    ((if P then [m] else []) = []) ↔ ¬ P := by
  split
  · rename_i h
    exact iff_of_false (List.cons_ne_nil m []) (not_not_intro h)
  · rename_i h
    exact iff_of_true rfl h

unseal Rat.mul Rat.add Rat.sub Rat.inv in
/-- Counterexample to claim C10: a configuration whose vacancy depreciation
rate is 0.9 — far beyond the documented [0, ~0.2] range — is accepted by
construction without error: Config.validate never checks
vacant_depreciation. -/
theorem c10_counterexample :
    ((0:ℚ) ≤ c10Bad.vacant_depreciation ∧
      (1/5 : ℚ) < c10Bad.vacant_depreciation) ∧
    configConstruct c10Bad = Except.ok c10Bad := by
  refine ⟨⟨by decide, by decide⟩, rfl⟩

/-- Claim C10 (amended): construction succeeds iff validate reports no
error, and validate passes exactly when every CHECKED parameter is in
range — positive counts, means, standard deviations, upgrade threshold and
auction steps, intrinsicness in [0,1], non-negative turnover.  The vacancy
depreciation rate is NOT among the checks, so out-of-range values for it
are accepted silently rather than failing fast. -/
theorem c10_validation :
    ∀ c : ConfigData,
      (configConstruct c = Except.ok c ↔ validateConfig c = []) ∧
      (validateConfig c = [] ↔
        (0 < c.num_houses ∧ 0 < c.num_people ∧ 0 < c.wealth_mean ∧
         0 < c.wealth_std ∧ 0 < c.house_price_mean ∧ 0 < c.house_price_std ∧
         (0 ≤ c.value_intrinsicness ∧ c.value_intrinsicness ≤ 1) ∧
         0 ≤ c.turnover_in ∧ 0 ≤ c.turnover_out ∧
         0 < c.upgrade_threshold ∧ 0 < c.n_auction_steps)) := by
  intro c
  constructor
  · unfold configConstruct
    split
    · rename_i h
      have hnil : validateConfig c = [] := by
        cases hx : validateConfig c with
        | nil => rfl
        | cons a l => rw [hx] at h; exact absurd h (by simp)
      exact iff_of_true rfl hnil
    · rename_i h
      have hne : validateConfig c ≠ [] := by
        intro hc
        rw [hc] at h
        exact h rfl
      constructor
      · intro hc
        exact Except.noConfusion hc
      · intro hc
        exact absurd hc hne
  · unfold validateConfig
    simp only [List.append_eq_nil, ite_singleton_eq_nil, not_le, not_lt,
      not_or]
    tauto

end HousingSim
